import Mathlib

/-!
# Binary heap over `int` (heap.c / heap.h): embedding and verified properties

The C structure `struct heap` is embedded as a Lean structure and every
function of `heap.c` as a Lean function on it.  Conventions:

* The `heap` argument of every function is a non-NULL pointer; the structure
  it points to is passed in and the structure after the call is returned.
  The `heap == NULL` / `val == NULL` guards are therefore outside the model.
* `heap->vals` is `none` for `NULL` and `some l` for a block holding the
  ints `l`.  An access outside the block is undefined behaviour in C and is
  the result `Res.out_of_bounds` here.
* Loops take a `fuel` bounding the number of evaluations of the loop head;
  `Res.out_of_fuel` means the loop had not finished within it.
* `malloc` / `realloc` outcomes are inputs of the model.
* Indices and `len` are natural numbers: the model is exact while the index
  arithmetic `2*i + 2` fits an `int`.  The one place where the source relies
  on unsigned wrap-around, `heap->len - 1` in `has_left` / `has_right`, is
  modelled with the wrap at `len = 0`.
-/

namespace HeapC

/-- Outcome of running a piece of the program. -/
inductive Res (α : Type) where
  | ok (a : α)
  | out_of_fuel
  | out_of_bounds
deriving DecidableEq, Repr

/-- Sequencing of outcomes: the first failure is the result. -/
def Res.bind {α β : Type} (r : Res α) (f : α → Res β) : Res β :=
  match r with
  | .ok a => f a
  | .out_of_fuel => .out_of_fuel
  | .out_of_bounds => .out_of_bounds

instance : Monad Res where
  pure := Res.ok
  bind := Res.bind

/-- Enumerator `min_heap` of `enum heap_type`. -/
abbrev min_heap : Int := 0

/-- Enumerator `max_heap` of `enum heap_type`. -/
abbrev max_heap : Int := 1

/-- Largest value of `unsigned int`. -/
abbrev UINT_MAX : Nat := 4294967295

/-- The C structure `struct heap`. -/
structure heap where
  initialized : Int
  heap_type : Int
  vals : Option (List Int)
  len : Nat
deriving DecidableEq, Repr

/-- Read `heap->vals[i]`. -/
def vals_get (h : heap) (i : Nat) : Res Int :=
  match h.vals with
  | none => .out_of_bounds
  | some l =>
    match l[i]? with
    | some v => .ok v
    | none => .out_of_bounds

/-- Write `heap->vals[i] = v`. -/
def vals_set (h : heap) (i : Nat) (v : Int) : Res heap :=
  match h.vals with
  | none => .out_of_bounds
  | some l =>
    if i < l.length then .ok { h with vals := some (l.set i v) }
    else .out_of_bounds

/-- The library call `realloc(p, n * sizeof(int))`: `none` when it fails (the
old block is then untouched), otherwise the new block, which keeps the first
`n` old ints; slots beyond the old block are indeterminate in C and hold `0`
here (`heap_insert` writes the only such slot before any read). -/
def realloc (ok : Bool) (p : Option (List Int)) (n : Nat) : Option (List Int) :=
  if ok then
    some ((p.getD []).take n ++ List.replicate (n - (p.getD []).length) 0)
  else none

def left_child (i : Nat) : Nat := 2 * i + 1

def right_child (i : Nat) : Nat := 2 * i + 2

def parent (i : Nat) : Nat := (i - 1) / 2

def property (h : heap) (parent child : Nat) : Res Int :=
  if h.heap_type = min_heap then do
    let p ← vals_get h parent
    let c ← vals_get h child
    pure (if p ≤ c then 1 else 0)
  else if h.heap_type = max_heap then do
    let p ← vals_get h parent
    let c ← vals_get h child
    pure (if p ≥ c then 1 else 0)
  else pure (-1)

def swap (h : heap) (parent child : Nat) : Res heap := do
  let tmp ← vals_get h parent
  let c ← vals_get h child
  let h1 ← vals_set h parent c
  vals_set h1 child tmp

/-- The function `heap_initialize` on a non-NULL `heap`. -/
def heap_initialize (h : heap) (heap_type : Int) : heap :=
  { h with heap_type := heap_type, vals := none, len := 0, initialized := 1 }

/-- The function `new_heap`; `malloc` is the result of the call
`malloc(sizeof(*heap))`: `none` for NULL, otherwise the fresh block with its
indeterminate content. -/
def new_heap (malloc : Option heap) (heap_type : Int) : Option heap :=
  match malloc with
  | none => none
  | some h => some ( heap_initialize h heap_type)

/-- The function `delete_heap`: the return code and the heap storage after
the call (`none` once it has been released by `free`). -/
def delete_heap (h : heap) : Int × Option heap :=
  if h.initialized ≠ 1 then (-1, some h)
  else if h.vals ≠ none then (-1, some h)
  else (0, none)

/-- The `for` loop of `heap_insert` (sift-up), entered with index `i`. -/
def insert_loop : Nat → heap → Nat → Res (Int × heap)
  | 0, _, _ => .out_of_fuel
  | fuel + 1, h, i =>
    if i = 0 then pure (1, h)
    else do
      let cond ← property h (parent i) i
      if cond ≠ 0 then pure (1, h)
      else do
        let ret ← property h (parent i) i
        if ret = -1 then pure (-1, h)
        else do
          let h1 ← swap h (parent i) i
          insert_loop fuel h1 (parent i)

/-- The function `heap_insert`: return code and heap after the call. -/
def heap_insert (fuel : Nat) (realloc_ok : Bool) (h : heap) (val : Int) :
    Res (Int × heap) :=
  if h.initialized ≠ 1 then pure (-1, h)
  else
    match realloc realloc_ok h.vals (h.len + 1) with
    | none => pure (-1, h)
    | some new_vals => do
      let h1 : heap := { h with vals := some new_vals, len := h.len + 1 }
      let h2 ← vals_set h1 (h1.len - 1) val
      insert_loop fuel h2 (h2.len - 1)

/-- The unsigned expression `heap->len - 1`. -/
def len_minus_1 (h : heap) : Nat := if h.len = 0 then UINT_MAX else h.len - 1

def has_left (i : Nat) (h : heap) : Bool := decide (left_child i ≤ len_minus_1 h)

def has_right (i : Nat) (h : heap) : Bool := decide (right_child i ≤ len_minus_1 h)

def no_children (i : Nat) (h : heap) : Bool := !has_left i h && !has_right i h

def left_no_right (i : Nat) (h : heap) : Bool := has_left i h && !has_right i h

def smaller_child (i : Nat) (h : heap) : Res Nat := do
  let l ← vals_get h (left_child i)
  let r ← vals_get h (right_child i)
  if l < r then pure (left_child i) else pure (right_child i)

def larger_child (i : Nat) (h : heap) : Res Nat := do
  let l ← vals_get h (left_child i)
  let r ← vals_get h (right_child i)
  if l > r then pure (left_child i) else pure (right_child i)

/-- The `while (1)` loop of `heap_extract` (sift-down), at index `i`. -/
def extract_loop : Nat → heap → Nat → Res (Int × heap)
  | 0, _, _ => .out_of_fuel
  | fuel + 1, h, i =>
    if no_children i h then pure (1, h)
    else if left_no_right i h then do
      let ret ← property h i (left_child i)
      if ret = -1 then pure (-1, h)
      else if ret = 0 then do
        let h1 ← swap h i (left_child i)
        pure (1, h1)
      else pure (1, h)
    else if h.heap_type = min_heap then do
      let the_smaller_child ← smaller_child i h
      let ret ← property h i the_smaller_child
      if ret = -1 then pure (-1, h)
      else do
        let h1 ← if ret = 0 then swap h i the_smaller_child else pure h
        extract_loop fuel h1 the_smaller_child
    else if h.heap_type = max_heap then do
      let the_larger_child ← larger_child i h
      let ret ← property h i the_larger_child
      if ret = -1 then pure (-1, h)
      else do
        let h1 ← if ret = 0 then swap h i the_larger_child else pure h
        extract_loop fuel h1 the_larger_child
    else extract_loop fuel h i

/-- The function `heap_extract`; `val` is the content of `*val` before the
call.  Result: return code, heap after the call, content of `*val` after. -/
def heap_extract (fuel : Nat) (realloc_ok : Bool) (h : heap) (val : Int) :
    Res (Int × heap × Int) :=
  if h.initialized ≠ 1 then pure (-1, h, val)
  else if h.vals = none then pure (-1, h, val)
  else if h.len = 0 then pure (0, h, val)
  else do
    let root ← vals_get h 0
    if h.len = 1 then pure (1, { h with vals := none, len := 0 }, root)
    else do
      let last ← vals_get h (h.len - 1)
      let h1 ← vals_set h 0 last
      match realloc realloc_ok h1.vals (h1.len - 1) with
      | none => pure (-1, h1, root)
      | some new_vals =>
        let h2 : heap := { h1 with vals := some new_vals, len := h1.len - 1 }
        let (ret, h3) ← extract_loop fuel h2 0
        pure (ret, h3, root)

/-- The static table `heap_types_and_strings` of `heap_type_to_str`. -/
def heap_types_and_strings : List (Int × String) :=
  [(min_heap, "min_heap"), (max_heap, "max_heap")]

/-- The `for` loop of `heap_type_to_str` over the remaining table entries;
`str` is the content of the slot `*str`. -/
def heap_type_to_str_loop (heap_type : Int) (str : Option String) :
    List (Int × String) → Int × Option String
  | [] => (0, str)
  | (t, s) :: rest =>
    if heap_type = t then (1, some s) else heap_type_to_str_loop heap_type str rest

/-- The function `heap_type_to_str` on a non-NULL `str`; the argument `str` is
the content of the slot `*str` before the call (`none` for NULL).  Result:
return code and content of `*str` after the call. -/
def heap_type_to_str (heap_type : Int) (str : Option String) : Int × Option String :=
  if str = none then (-1, str)
  else heap_type_to_str_loop heap_type str heap_types_and_strings

/-! ## Specification vocabulary -/

/-- The ordering relation of a heap kind: `a ≤ b` for `min_heap`, `a ≥ b` for
`max_heap`. -/
def ordering (k : Int) (a b : Int) : Prop :=
  (k = min_heap ∧ a ≤ b) ∨ (k = max_heap ∧ a ≥ b)

instance (k a b : Int) : Decidable (ordering k a b) := by
  unfold ordering; infer_instance

/-- The ints stored in the array of a heap (none when `vals` is NULL). -/
def contents (h : heap) : List Int := h.vals.getD []

/-- An initialized heap of kind `min_heap` or `max_heap` whose array holds
exactly `len` ints. -/
def heap_ok (h : heap) : Prop :=
  h.initialized = 1 ∧ (h.heap_type = min_heap ∨ h.heap_type = max_heap) ∧
    (contents h).length = h.len

instance (h : heap) : Decidable (heap_ok h) := by
  unfold heap_ok; infer_instance

/-- The heap property: every non-root index is ordered after its parent. -/
def heap_property (h : heap) : Prop :=
  ∀ i, i < h.len → i ≠ 0 →
    ordering h.heap_type ((contents h).getD (parent i) 0) ((contents h).getD i 0)

instance (h : heap) : Decidable (heap_property h) := by
  unfold heap_property; infer_instance

/-- Exchange of the entries `i` and `j` of a list, as done by `swap`. -/
def lswap (l : List Int) (i j : Nat) : List Int :=
  (l.set i (l.getD j 0)).set j (l.getD i 0)

/-- The heap property of a list of kind `k`. -/
def is_heap (k : Int) (l : List Int) : Prop :=
  ∀ j, j < l.length → j ≠ 0 → ordering k (l.getD (parent j) 0) (l.getD j 0)

/-- Loop invariant of sift-up at index `i`: every pair except `(parent i, i)`
is ordered, and the parent of `i` is ordered before the children of `i`. -/
def up_inv (k : Int) (l : List Int) (i : Nat) : Prop :=
  (∀ j, j < l.length → j ≠ 0 → j ≠ i →
    ordering k (l.getD (parent j) 0) (l.getD j 0)) ∧
  (∀ j, j < l.length → j ≠ 0 → parent j = i → i ≠ 0 →
    ordering k (l.getD (parent i) 0) (l.getD j 0))

/-- Loop invariant of sift-down at index `i`: every pair except those of `i`
with its children is ordered, and the parent of `i` is ordered before the
children of `i`. -/
def down_inv (k : Int) (l : List Int) (i : Nat) : Prop :=
  (∀ j, j < l.length → j ≠ 0 → parent j ≠ i →
    ordering k (l.getD (parent j) 0) (l.getD j 0)) ∧
  (∀ j, j < l.length → j ≠ 0 → parent j = i → i ≠ 0 →
    ordering k (l.getD (parent i) 0) (l.getD j 0))

/-- The child picked in the two-children case of sift-down. -/
def chosen_child (k : Int) (l : List Int) (i : Nat) : Nat :=
  if k = min_heap then
    (if l.getD (2 * i + 1) 0 < l.getD (2 * i + 2) 0 then 2 * i + 1 else 2 * i + 2)
  else
    (if l.getD (2 * i + 1) 0 > l.getD (2 * i + 2) 0 then 2 * i + 1 else 2 * i + 2)

/-- The array after the root replacement and the shrink by one of `heap_extract`. -/
def shrink (l : List Int) : List Int :=
  (l.set 0 (l.getD (l.length - 1) 0)).take (l.length - 1)

/-- Fields that the loops leave alone. -/
def same_frame (h h2 : heap) : Prop :=
  h2.initialized = h.initialized ∧ h2.heap_type = h.heap_type ∧ h2.len = h.len ∧
    (h2.vals = none ↔ h.vals = none) ∧ (contents h2).length = (contents h).length


/-! ## Call sequences -/

/-- Calls `heap_insert` for each value of the list in order, growth
succeeding (the insert loop of `test_1`): the return codes and the heap
after the last call. -/
def insert_all (fuel : Nat) : List Int → heap → Res (List Int × heap)
  | [], h => pure ([], h)
  | x :: xs, h => do
    let (ret, h1) ← heap_insert fuel true h x
    let (rets, h2) ← insert_all fuel xs h1
    pure (ret :: rets, h2)

/-- Calls `heap_extract` `n` times on the same `val` slot, shrinks succeeding
(the extract loop of `test_1`): return code and content of `*val` after each
call, and the heap after the last call. -/
def extract_n (fuel : Nat) : Nat → heap → Int → Res (List (Int × Int) × heap)
  | 0, h, _ => pure ([], h)
  | n + 1, h, val => do
    let (ret, h1, v) ← heap_extract fuel true h val
    let (outs, h2) ← extract_n fuel n h1 v
    pure ((ret, v) :: outs, h2)

/-- The list sorted ascending for `min_heap`, descending otherwise. -/
def sorted_for (k : Int) (xs : List Int) : List Int :=
  if k = min_heap then xs.insertionSort (fun a b => a ≤ b)
  else xs.insertionSort (fun a b => a ≥ b)

/-- One call of the public interface on a heap. -/
inductive call where
  | insert (val : Int)
  | extract
deriving DecidableEq, Repr

/-- Runs a sequence of calls, allocation succeeding: the return codes and the
heap after the last call.  `val` is the content of the output slot. -/
def run_calls (fuel : Nat) : List call → heap → Int → Res (List Int × heap)
  | [], h, _ => pure ([], h)
  | .insert x :: cs, h, val => do
    let (ret, h1) ← heap_insert fuel true h x
    let (rets, h2) ← run_calls fuel cs h1 val
    pure (ret :: rets, h2)
  | .extract :: cs, h, val => do
    let (ret, h1, v) ← heap_extract fuel true h val
    let (rets, h2) ← run_calls fuel cs h1 v
    pure (ret :: rets, h2)

/-- Number of inserts in a sequence of calls. -/
def inserts : List call → Nat
  | [] => 0
  | .insert _ :: cs => inserts cs + 1
  | .extract :: cs => inserts cs

/-- Number of extracts in a sequence of calls. -/
def extracts : List call → Nat
  | [] => 0
  | .insert _ :: cs => extracts cs
  | .extract :: cs => extracts cs + 1

/-- Heaps obtained from `new_heap` by calls of `heap_insert` and
`heap_extract` that returned 1. -/
inductive reachable : heap → Prop where
  | new (b : heap) (k : Int) (h : heap) : new_heap (some b) k = some h → reachable h
  | insert (fuel : Nat) (ok : Bool) (h : heap) (val : Int) (h2 : heap) :
      reachable h → heap_insert fuel ok h val = .ok (1, h2) → reachable h2
  | extract (fuel : Nat) (ok : Bool) (h : heap) (val : Int) (h2 : heap) (out : Int) :
      reachable h → heap_extract fuel ok h val = .ok (1, h2, out) → reachable h2

/-! ## Short-circuiting variant of sift-down -/

/-- The sift-down loop of `extract_sc`: as `extract_loop`, except that at a
node with two children the walk stops as soon as no swap is needed. -/
def extract_loop_sc : Nat → heap → Nat → Res (Int × heap)
  | 0, _, _ => .out_of_fuel
  | fuel + 1, h, i =>
    if no_children i h then pure (1, h)
    else if left_no_right i h then do
      let ret ← property h i (left_child i)
      if ret = -1 then pure (-1, h)
      else if ret = 0 then do
        let h1 ← swap h i (left_child i)
        pure (1, h1)
      else pure (1, h)
    else if h.heap_type = min_heap then do
      let the_smaller_child ← smaller_child i h
      let ret ← property h i the_smaller_child
      if ret = -1 then pure (-1, h)
      else if ret = 0 then do
        let h1 ← swap h i the_smaller_child
        extract_loop_sc fuel h1 the_smaller_child
      else pure (1, h)
    else if h.heap_type = max_heap then do
      let the_larger_child ← larger_child i h
      let ret ← property h i the_larger_child
      if ret = -1 then pure (-1, h)
      else if ret = 0 then do
        let h1 ← swap h i the_larger_child
        extract_loop_sc fuel h1 the_larger_child
      else pure (1, h)
    else extract_loop_sc fuel h i

/-- The function `extract_sc`: `heap_extract` with the short-circuiting
sift-down loop. -/
def extract_sc (fuel : Nat) (realloc_ok : Bool) (h : heap) (val : Int) :
    Res (Int × heap × Int) :=
  if h.initialized ≠ 1 then pure (-1, h, val)
  else if h.vals = none then pure (-1, h, val)
  else if h.len = 0 then pure (0, h, val)
  else do
    let root ← vals_get h 0
    if h.len = 1 then pure (1, { h with vals := none, len := 0 }, root)
    else do
      let last ← vals_get h (h.len - 1)
      let h1 ← vals_set h 0 last
      match realloc realloc_ok h1.vals (h1.len - 1) with
      | none => pure (-1, h1, root)
      | some new_vals =>
        let h2 : heap := { h1 with vals := some new_vals, len := h1.len - 1 }
        let (ret, h3) ← extract_loop_sc fuel h2 0
        pure (ret, h3, root)

/-! ## Lists: access, exchange -/

theorem set_set_perm (l : List Int) (i j : Nat) (hi : i < l.length) (hj : j < l.length)
    (v w : Int) (hv : v = l[j]) (hw : w = l[i]) : ((l.set i v).set j w).Perm l := by
  have hj2 : j < (l.set i v).length := by simpa using hj
  rw [List.perm_iff_count]
  intro a
  rw [List.count_set _ _ _ _ hj2, List.count_set _ _ _ _ hi]
  have c1 : (l[i] == a) = true → 0 < l.count a := by
    intro h; simp at h; subst h; exact List.count_pos_iff.mpr (List.getElem_mem _)
  have c2 : (l[j] == a) = true → 0 < l.count a := by
    intro h; simp at h; subst h; exact List.count_pos_iff.mpr (List.getElem_mem _)
  have e : (l.set i v)[j] = l[j] := by
    by_cases hij : i = j
    · subst hij; simp [hv]
    · rw [List.getElem_set_ne hij]
  rw [e]
  subst hv hw
  by_cases h1 : (l[i] == a) = true <;> by_cases h2 : (l[j] == a) = true
  · have := c1 h1; simp only [h1, h2, if_true]; omega
  · have := c1 h1; simp only [h1, h2, if_true]; simp; omega
  · have := c2 h2; simp only [h1, h2, if_true]; simp
  · simp only [h1, h2]; simp

theorem getD_set (l : List Int) (i x : Nat) (v : Int) (hi : i < l.length) :
    (l.set i v).getD x 0 = if x = i then v else l.getD x 0 := by
  simp only [List.getD_eq_getElem?_getD, List.getElem?_set]
  by_cases h : i = x
  · subst h; simp [hi]
  · have h2 : ¬ x = i := fun e => h e.symm
    simp [h, h2]

theorem lswap_getD (l : List Int) (i j x : Nat) (hi : i < l.length) (hj : j < l.length) :
    (lswap l i j).getD x 0 = if x = j then l.getD i 0 else if x = i then l.getD j 0 else l.getD x 0 := by
  unfold lswap
  rw [getD_set _ _ _ _ (by simpa using hj), getD_set _ _ _ _ hi]

theorem lswap_length (l : List Int) (i j : Nat) : (lswap l i j).length = l.length := by
  simp [lswap]

theorem lswap_perm (l : List Int) (i j : Nat) (hi : i < l.length) (hj : j < l.length) :
    (lswap l i j).Perm l := by
  apply set_set_perm l i j hi hj
  · simp [List.getD_eq_getElem?_getD, hj]
  · simp [List.getD_eq_getElem?_getD, hi]

theorem vals_get_some (a k : Int) (l : List Int) (n i : Nat) (hi : i < l.length) :
    vals_get ⟨a, k, some l, n⟩ i = .ok (l.getD i 0) := by
  simp [vals_get, List.getD_eq_getElem?_getD, List.getElem?_eq_getElem hi]

theorem vals_set_some (a k : Int) (l : List Int) (n i : Nat) (v : Int) (hi : i < l.length) :
    vals_set ⟨a, k, some l, n⟩ i v = .ok ⟨a, k, some (l.set i v), n⟩ := by
  simp [vals_set, hi]

theorem swap_some (a k : Int) (l : List Int) (n i j : Nat) (hi : i < l.length)
    (hj : j < l.length) :
    swap ⟨a, k, some l, n⟩ i j = .ok ⟨a, k, some (lswap l i j), n⟩ := by
  have hj2 : j < (l.set i (l.getD j 0)).length := by simpa using hj
  simp only [swap, bind, Res.bind, vals_get_some a k l n i hi, vals_get_some a k l n j hj,
    vals_set_some a k l n i _ hi, vals_set_some a k _ n j _ hj2, lswap]

/-! ## Ordering and the loop invariants -/

theorem ordering_total (k a b : Int) (hk : k = min_heap ∨ k = max_heap) :
    ordering k a b ∨ ordering k b a := by
  unfold ordering; omega

theorem ordering_trans (k a b c : Int) (h1 : ordering k a b) (h2 : ordering k b c) :
    ordering k a c := by
  unfold ordering at *; omega

theorem ordering_refl (k a : Int) (hk : k = min_heap ∨ k = max_heap) : ordering k a a := by
  unfold ordering; omega

theorem parent_lt (i : Nat) (hi : i ≠ 0) : parent i < i := by
  unfold parent; omega

theorem up_done (k : Int) (l : List Int) (i : Nat) (hinv : up_inv k l i)
    (h : i = 0 ∨ ordering k (l.getD (parent i) 0) (l.getD i 0)) : is_heap k l := by
  intro j hj hj0
  by_cases hji : j = i
  · subst hji
    rcases h with h | h
    · exact absurd h hj0
    · exact h
  · exact hinv.1 j hj hj0 hji

theorem up_step (k : Int) (l : List Int) (i : Nat) (hk : k = min_heap ∨ k = max_heap)
    (hi : i < l.length) (hi0 : i ≠ 0) (hinv : up_inv k l i)
    (hno : ¬ ordering k (l.getD (parent i) 0) (l.getD i 0)) :
    up_inv k (lswap l (parent i) i) (parent i) := by
  have hpi : parent i < i := parent_lt i hi0
  have hp : parent i < l.length := by omega
  have hrev : ordering k (l.getD i 0) (l.getD (parent i) 0) :=
    (ordering_total k _ _ hk).resolve_right hno
  have hne : ¬ parent i = i := by omega
  obtain ⟨h1, h2⟩ := hinv
  constructor
  · intro j hj hj0 hjp
    rw [lswap_length] at hj
    rw [lswap_getD l _ _ _ hp hi, lswap_getD l _ _ _ hp hi]
    by_cases hji : j = i
    · subst hji
      simp only [if_true, if_neg hne]
      exact hrev
    · have hpj : ¬ parent j = j := by have := parent_lt j hj0; omega
      by_cases hpp : parent j = parent i
      · have e : ¬ parent j = i := by omega
        simp only [if_neg hji, if_neg hjp, if_neg e, hpp, if_true, if_neg hne]
        have := h1 j hj hj0 hji
        rw [hpp] at this
        exact ordering_trans k _ _ _ hrev this
      · by_cases hpj2 : parent j = i
        · simp only [if_neg hji, if_neg hjp, hpj2, if_true]
          exact h2 j hj hj0 hpj2 hi0
        · simp only [if_neg hji, if_neg hjp, if_neg hpj2, if_neg hpp]
          exact h1 j hj hj0 hji
  · intro j hj hj0 hjp hp0
    rw [lswap_length] at hj
    have hpp : parent (parent i) < parent i := parent_lt _ hp0
    rw [lswap_getD l _ _ _ hp hi, lswap_getD l _ _ _ hp hi]
    have e1 : ¬ parent (parent i) = i := by omega
    have e2 : ¬ parent (parent i) = parent i := by omega
    have hgp := h1 (parent i) hp hp0 hne
    simp only [if_neg e1, if_neg e2]
    by_cases hji : j = i
    · subst hji
      simp only [if_true]
      exact hgp
    · have e3 : ¬ j = parent i := by have := parent_lt j hj0; omega
      simp only [if_neg hji, if_neg e3]
      have := h1 j hj hj0 hji
      rw [hjp] at this
      exact ordering_trans k _ _ _ hgp this

theorem parent_eq_iff (i j : Nat) (hj : j ≠ 0) :
    parent j = i ↔ j = 2 * i + 1 ∨ j = 2 * i + 2 := by
  unfold parent; omega

theorem down_leaf (k : Int) (l : List Int) (i : Nat) (hinv : down_inv k l i)
    (hl : ¬ 2 * i + 1 < l.length) : is_heap k l := by
  intro j hj hj0
  apply hinv.1 j hj hj0
  intro h
  rw [parent_eq_iff i j hj0] at h
  omega

theorem down_left_ok (k : Int) (l : List Int) (i : Nat) (hinv : down_inv k l i)
    (hr : ¬ 2 * i + 2 < l.length)
    (h : ordering k (l.getD i 0) (l.getD (2 * i + 1) 0)) : is_heap k l := by
  intro j hj hj0
  by_cases hp : parent j = i
  · have := (parent_eq_iff i j hj0).1 hp
    have e : j = 2 * i + 1 := by omega
    rw [hp, e]; exact h
  · exact hinv.1 j hj hj0 hp

theorem down_left_swap (k : Int) (l : List Int) (i : Nat) (hk : k = min_heap ∨ k = max_heap)
    (hinv : down_inv k l i) (hl : 2 * i + 1 < l.length) (hr : ¬ 2 * i + 2 < l.length)
    (h : ¬ ordering k (l.getD i 0) (l.getD (2 * i + 1) 0)) :
    is_heap k (lswap l i (2 * i + 1)) := by
  have hi : i < l.length := by omega
  have hrev := (ordering_total k _ _ hk).resolve_left h
  obtain ⟨h1, h2⟩ := hinv
  intro j hj hj0
  rw [lswap_length] at hj
  rw [lswap_getD l _ _ _ hi hl, lswap_getD l _ _ _ hi hl]
  have hpj := parent_lt j hj0
  have hiff := parent_eq_iff i j hj0
  have hiff2 := parent_eq_iff (2 * i + 1) j hj0
  by_cases hjc : j = 2 * i + 1
  · subst hjc
    have e1 : parent (2 * i + 1) = i := hiff.2 (Or.inl rfl)
    have e2 : ¬ i = 2 * i + 1 := by omega
    simp only [e1, if_true, if_neg e2]
    exact hrev
  · have e0 : ¬ parent j = 2 * i + 1 := by intro e; rw [hiff2] at e; omega
    have e3 : ¬ parent j = i := by intro e; rw [hiff] at e; omega
    by_cases hji : j = i
    · subst hji
      have hi0 : j ≠ 0 := by omega
      have := h2 (2 * j + 1) hl (by omega) ((parent_eq_iff j _ (by omega)).2 (Or.inl rfl)) hi0
      simp only [if_neg e0, if_neg e3, if_neg hjc, if_true]
      exact this
    · simp only [if_neg e0, if_neg e3, if_neg hjc, if_neg hji]
      exact h1 j hj hj0 e3

theorem down_two_ok (k : Int) (l : List Int) (i c o : Nat) (hinv : down_inv k l i)
    (hco : (c = 2 * i + 1 ∧ o = 2 * i + 2) ∨ (c = 2 * i + 2 ∧ o = 2 * i + 1))
    (hcmp : ordering k (l.getD c 0) (l.getD o 0))
    (h : ordering k (l.getD i 0) (l.getD c 0)) : down_inv k l c := by
  obtain ⟨h1, h2⟩ := hinv
  have hpc : parent c = i := (parent_eq_iff i c (by omega)).2 (by omega)
  constructor
  · intro j hj hj0 hjc
    by_cases hp : parent j = i
    · have := (parent_eq_iff i j hj0).1 hp
      rw [hp]
      by_cases e : j = c
      · rw [e]; exact h
      · have e2 : j = o := by omega
        rw [e2]; exact ordering_trans k _ _ _ h hcmp
    · exact h1 j hj hj0 hp
  · intro j hj hj0 hjc _
    rw [hpc]
    have hne : parent j ≠ i := by
      intro e; have := (parent_eq_iff c j hj0).1 hjc; have := (parent_eq_iff i j hj0).1 e; omega
    have := h1 j hj hj0 hne
    rw [hjc] at this
    exact ordering_trans k _ _ _ h this

theorem down_two_swap (k : Int) (l : List Int) (i c o : Nat) (hk : k = min_heap ∨ k = max_heap)
    (hinv : down_inv k l i)
    (hco : (c = 2 * i + 1 ∧ o = 2 * i + 2) ∨ (c = 2 * i + 2 ∧ o = 2 * i + 1))
    (hc : c < l.length) (hcmp : ordering k (l.getD c 0) (l.getD o 0))
    (h : ¬ ordering k (l.getD i 0) (l.getD c 0)) : down_inv k (lswap l i c) c := by
  have hi : i < l.length := by omega
  have hrev := (ordering_total k _ _ hk).resolve_left h
  obtain ⟨h1, h2⟩ := hinv
  have hpc : parent c = i := (parent_eq_iff i c (by omega)).2 (by omega)
  have hic : ¬ i = c := by omega
  constructor
  · intro j hj hj0 hjc
    rw [lswap_length] at hj
    rw [lswap_getD l _ _ _ hi hc, lswap_getD l _ _ _ hi hc]
    have hpj := parent_lt j hj0
    have hiff := parent_eq_iff i j hj0
    simp only [if_neg hjc]
    by_cases hp : parent j = i
    · have := hiff.1 hp
      simp only [hp, if_true]
      by_cases e : j = c
      · simp only [e, if_true]; exact hrev
      · have e2 : j = o := by omega
        have e3 : ¬ o = c := by omega
        have e4 : ¬ o = i := by omega
        simp only [e2, if_neg e3, if_neg e4]; exact hcmp
    · have e : ¬ j = c := by intro e; rw [e] at hp; exact hp hpc
      simp only [if_neg hp, if_neg e]
      by_cases hji : j = i
      · simp only [hji, if_true]
        have hi0 : i ≠ 0 := by omega
        exact h2 c hc (by omega) hpc hi0
      · simp only [if_neg hji]
        exact h1 j hj hj0 hp
  · intro j hj hj0 hjc _
    rw [lswap_length] at hj
    rw [lswap_getD l _ _ _ hi hc, lswap_getD l _ _ _ hi hc]
    have := (parent_eq_iff c j hj0).1 hjc
    have e1 : ¬ j = c := by omega
    have e2 : ¬ j = i := by omega
    simp only [hpc, if_neg hic, if_true, if_neg e1, if_neg e2]
    have hne : parent j ≠ i := by omega
    have := h1 j hj hj0 hne
    rw [hjc] at this
    exact this

/-! ## The two loops -/

theorem property_some (a k : Int) (l : List Int) (n p c : Nat)
    (hk : k = min_heap ∨ k = max_heap) (hp : p < l.length) (hc : c < l.length) :
    property ⟨a, k, some l, n⟩ p c =
      .ok (if ordering k (l.getD p 0) (l.getD c 0) then 1 else 0) := by
  rcases hk with rfl | rfl
  · simp [property, bind, Res.bind, pure, vals_get_some _ _ l n p hp,
      vals_get_some _ _ l n c hc, ordering]
  · simp [property, bind, Res.bind, pure, vals_get_some _ _ l n p hp,
      vals_get_some _ _ l n c hc, ordering]

theorem insert_loop_spec (a k : Int) (n : Nat) (hk : k = min_heap ∨ k = max_heap) :
    ∀ (fuel : Nat) (l : List Int) (i : Nat), i < l.length → i < fuel →
      ∃ l2, insert_loop fuel ⟨a, k, some l, n⟩ i = .ok (1, ⟨a, k, some l2, n⟩) ∧
        l2.length = l.length ∧ l2.Perm l ∧ (up_inv k l i → is_heap k l2) := by
  intro fuel
  induction fuel with
  | zero => intro l i _ h; omega
  | succ fuel ih =>
    intro l i hi hf
    by_cases hi0 : i = 0
    · refine ⟨l, ?_, rfl, List.Perm.refl _, fun h => up_done k l i h (Or.inl hi0)⟩
      simp [insert_loop, hi0, pure]
    · have hpi := parent_lt i hi0
      have hp : parent i < l.length := by omega
      by_cases hord : ordering k (l.getD (parent i) 0) (l.getD i 0)
      · refine ⟨l, ?_, rfl, List.Perm.refl _, fun h => up_done k l i h (Or.inr hord)⟩
        simp only [insert_loop, if_neg hi0, bind, Res.bind, property_some a k l n _ _ hk hp hi,
          if_pos hord]
        rfl
      · obtain ⟨l2, h1, h2, h3, h4⟩ := ih (lswap l (parent i) i) (parent i)
          (by rw [lswap_length]; exact hp) (by omega)
        refine ⟨l2, ?_, by rw [h2, lswap_length], h3.trans (lswap_perm l _ _ hp hi),
          fun h => h4 (up_step k l i hk hi hi0 h hord)⟩
        simp only [insert_loop, if_neg hi0, bind, Res.bind, property_some a k l n _ _ hk hp hi,
          if_neg hord, swap_some a k l n _ _ hp hi, h1]
        rfl

theorem has_left_iff (a k : Int) (v : Option (List Int)) (n i : Nat) (hn : 0 < n) :
    has_left i ⟨a, k, v, n⟩ = decide (2 * i + 1 < n) := by
  have h0 : ¬ n = 0 := by omega
  simp only [has_left, len_minus_1, left_child, if_neg h0]
  by_cases h : 2 * i + 1 < n
  · simp only [h, decide_True]; exact decide_eq_true (by omega)
  · simp only [h, decide_False]; exact decide_eq_false (by omega)

theorem has_right_iff (a k : Int) (v : Option (List Int)) (n i : Nat) (hn : 0 < n) :
    has_right i ⟨a, k, v, n⟩ = decide (2 * i + 2 < n) := by
  have h0 : ¬ n = 0 := by omega
  simp only [has_right, len_minus_1, right_child, if_neg h0]
  by_cases h : 2 * i + 2 < n
  · simp only [h, decide_True]; exact decide_eq_true (by omega)
  · simp only [h, decide_False]; exact decide_eq_false (by omega)

theorem smaller_child_some (a k : Int) (l : List Int) (n i : Nat) (hr : 2 * i + 2 < l.length) :
    smaller_child i ⟨a, k, some l, n⟩ = .ok (chosen_child min_heap l i) := by
  have hl : 2 * i + 1 < l.length := by omega
  simp only [smaller_child, left_child, right_child, bind, Res.bind,
    vals_get_some a k l n _ hl, vals_get_some a k l n _ hr, chosen_child, if_true, pure]
  split_ifs <;> rfl

theorem larger_child_some (a k : Int) (l : List Int) (n i : Nat) (hr : 2 * i + 2 < l.length) :
    larger_child i ⟨a, k, some l, n⟩ = .ok (chosen_child max_heap l i) := by
  have hl : 2 * i + 1 < l.length := by omega
  have e : ¬ max_heap = min_heap := by decide
  simp only [larger_child, left_child, right_child, bind, Res.bind,
    vals_get_some a k l n _ hl, vals_get_some a k l n _ hr, chosen_child, if_neg e, pure]
  split_ifs <;> rfl

theorem chosen_child_spec (k : Int) (l : List Int) (i : Nat)
    (hk : k = min_heap ∨ k = max_heap) :
    ∃ o, ((chosen_child k l i = 2 * i + 1 ∧ o = 2 * i + 2) ∨
          (chosen_child k l i = 2 * i + 2 ∧ o = 2 * i + 1)) ∧
      ordering k (l.getD (chosen_child k l i) 0) (l.getD o 0) := by
  rcases hk with rfl | rfl
  · by_cases h : l.getD (2 * i + 1) 0 < l.getD (2 * i + 2) 0
    · refine ⟨2 * i + 2, Or.inl ⟨by simp only [chosen_child, if_true, if_pos h], rfl⟩, ?_⟩
      simp only [chosen_child, if_true, if_pos h]
      exact Or.inl ⟨rfl, by omega⟩
    · refine ⟨2 * i + 1, Or.inr ⟨by simp only [chosen_child, if_true, if_neg h], rfl⟩, ?_⟩
      simp only [chosen_child, if_true, if_neg h]
      exact Or.inl ⟨rfl, by omega⟩
  · have e : ¬ max_heap = min_heap := by decide
    by_cases h : l.getD (2 * i + 1) 0 > l.getD (2 * i + 2) 0
    · refine ⟨2 * i + 2, Or.inl ⟨by simp only [chosen_child, if_neg e, if_pos h], rfl⟩, ?_⟩
      simp only [chosen_child, if_neg e, if_pos h]
      exact Or.inr ⟨rfl, by omega⟩
    · refine ⟨2 * i + 1, Or.inr ⟨by simp only [chosen_child, if_neg e, if_neg h], rfl⟩, ?_⟩
      simp only [chosen_child, if_neg e, if_neg h]
      exact Or.inr ⟨rfl, by omega⟩

/-- One iteration of the sift-down loop at a node with two children. -/
theorem extract_loop_two (a k : Int) (l : List Int) (n i fuel : Nat)
    (hk : k = min_heap ∨ k = max_heap) (hn : n = l.length) (hr : 2 * i + 2 < l.length) :
    extract_loop (fuel + 1) ⟨a, k, some l, n⟩ i =
      if ordering k (l.getD i 0) (l.getD (chosen_child k l i) 0) then
        extract_loop fuel ⟨a, k, some l, n⟩ (chosen_child k l i)
      else
        extract_loop fuel ⟨a, k, some (lswap l i (chosen_child k l i)), n⟩
          (chosen_child k l i) := by
  have hn0 : 0 < n := by omega
  have hi : i < l.length := by omega
  obtain ⟨o, ho, -⟩ := chosen_child_spec k l i hk
  have hc : chosen_child k l i < l.length := by omega
  have hL : (2 * i + 1 < n) := by omega
  have hR : (2 * i + 2 < n) := by omega
  rw [extract_loop]
  simp only [no_children, left_no_right, has_left_iff a k _ n i hn0, has_right_iff a k _ n i hn0,
    hL, hR, decide_True, Bool.not_true, Bool.and_false, Bool.false_and, Bool.and_self]
  rcases hk with rfl | rfl
  · simp only [if_true, smaller_child_some a _ l n i hr, bind, Res.bind,
      property_some a _ l n _ _ (Or.inl rfl) hi hc]
    by_cases hord : ordering min_heap (l.getD i 0) (l.getD (chosen_child min_heap l i) 0)
    · simp only [if_pos hord]; rfl
    · simp only [if_neg hord, swap_some a _ l n _ _ hi hc]; rfl
  · have e : ¬ max_heap = min_heap := by decide
    simp only [if_neg e, if_true, larger_child_some a _ l n i hr, bind, Res.bind,
      property_some a _ l n _ _ (Or.inr rfl) hi hc]
    by_cases hord : ordering max_heap (l.getD i 0) (l.getD (chosen_child max_heap l i) 0)
    · simp only [if_pos hord]; rfl
    · simp only [if_neg hord, swap_some a _ l n _ _ hi hc]; rfl

theorem extract_loop_spec (a k : Int) (n : Nat) (hk : k = min_heap ∨ k = max_heap) :
    ∀ (fuel : Nat) (l : List Int) (i : Nat), n = l.length → i < n → n ≤ fuel + i →
      ∃ l2, extract_loop fuel ⟨a, k, some l, n⟩ i = .ok (1, ⟨a, k, some l2, n⟩) ∧
        l2.length = l.length ∧ l2.Perm l ∧ (down_inv k l i → is_heap k l2) := by
  intro fuel
  induction fuel with
  | zero => intro l i _ h1 h2; omega
  | succ fuel ih =>
    intro l i hn hi hf
    have hn0 : 0 < n := by omega
    have hil : i < l.length := by omega
    by_cases hL : 2 * i + 1 < n
    · by_cases hR : 2 * i + 2 < n
      · -- two children
        obtain ⟨o, ho, hcmp⟩ := chosen_child_spec k l i hk
        have hc : chosen_child k l i < l.length := by omega
        rw [extract_loop_two a k l n i fuel hk hn (by omega)]
        by_cases hord : ordering k (l.getD i 0) (l.getD (chosen_child k l i) 0)
        · rw [if_pos hord]
          obtain ⟨l2, h1, h2, h3, h4⟩ := ih l (chosen_child k l i) hn (by omega) (by omega)
          exact ⟨l2, h1, h2, h3, fun h => h4 (down_two_ok k l i _ o h ho hcmp hord)⟩
        · rw [if_neg hord]
          obtain ⟨l2, h1, h2, h3, h4⟩ := ih (lswap l i (chosen_child k l i)) (chosen_child k l i)
            (by rw [lswap_length]; exact hn) (by omega) (by omega)
          exact ⟨l2, h1, by rw [h2, lswap_length], h3.trans (lswap_perm l _ _ hil hc),
            fun h => h4 (down_two_swap k l i _ o hk h ho hc hcmp hord)⟩
      · -- left child only
        have hLl : 2 * i + 1 < l.length := by omega
        have hRl : ¬ 2 * i + 2 < l.length := by omega
        by_cases hord : ordering k (l.getD i 0) (l.getD (2 * i + 1) 0)
        · refine ⟨l, ?_, rfl, List.Perm.refl _, fun h => down_left_ok k l i h hRl hord⟩
          rw [extract_loop]
          simp only [no_children, left_no_right, has_left_iff a k _ n i hn0,
            has_right_iff a k _ n i hn0, hL, hR, decide_True, decide_False, Bool.not_true,
            Bool.not_false, Bool.and_false, Bool.false_and, Bool.and_self, left_child,
            property_some a k l n _ _ hk hil hLl, bind, Res.bind, if_pos hord]
          rfl
        · refine ⟨lswap l i (2 * i + 1), ?_, lswap_length _ _ _, lswap_perm l _ _ hil hLl,
            fun h => down_left_swap k l i hk h hLl hRl hord⟩
          rw [extract_loop]
          simp only [no_children, left_no_right, has_left_iff a k _ n i hn0,
            has_right_iff a k _ n i hn0, hL, hR, decide_True, decide_False, Bool.not_true,
            Bool.not_false, Bool.and_false, Bool.false_and, Bool.and_self, left_child,
            property_some a k l n _ _ hk hil hLl, bind, Res.bind, if_neg hord,
            swap_some a k l n _ _ hil hLl]
          rfl
    · -- no children
      have hR : ¬ 2 * i + 2 < n := by omega
      refine ⟨l, ?_, rfl, List.Perm.refl _, fun h => down_leaf k l i h (by omega)⟩
      rw [extract_loop]
      simp only [no_children, has_left_iff a k _ n i hn0,
        has_right_iff a k _ n i hn0, hL, hR, decide_False, Bool.not_false, Bool.and_self]
      rfl

/-! ## The public operations -/

theorem heap_property_iff (h : heap) (hl : (contents h).length = h.len) :
    heap_property h ↔ is_heap h.heap_type (contents h) := by
  unfold heap_property is_heap
  rw [hl]

theorem up_inv_append (k : Int) (l : List Int) (val : Int) (h : is_heap k l) :
    up_inv k (l ++ [val]) l.length := by
  constructor
  · intro j hj hj0 hjn
    have hj1 : j < l.length := by simp at hj; omega
    have hp := parent_lt j hj0
    rw [List.getD_append _ _ _ _ hj1, List.getD_append _ _ _ _ (by omega)]
    exact h j hj1 hj0
  · intro j hj hj0 hp _
    have := parent_lt j hj0
    simp at hj; omega

theorem heap_insert_spec (fuel : Nat) (h : heap) (val : Int) (hok : heap_ok h)
    (hf : h.len < fuel) :
    ∃ h2, heap_insert fuel true h val = .ok (1, h2) ∧ heap_ok h2 ∧
      h2.heap_type = h.heap_type ∧ h2.len = h.len + 1 ∧ h2.vals ≠ none ∧
      (contents h2).Perm (val :: contents h) ∧ (heap_property h → heap_property h2) := by
  obtain ⟨a, k, v, n⟩ := h
  obtain ⟨ha, hk, hl⟩ := hok
  simp only at ha hk hl hf
  subst ha
  have hr : realloc true v (n + 1) = some (contents ⟨1, k, v, n⟩ ++ [0]) := by
    simp only [realloc, contents, if_true]
    rw [List.take_of_length_le (by simp only [contents] at hl; omega)]
    have : n + 1 - (v.getD []).length = 1 := by simp only [contents] at hl; omega
    rw [this]; rfl
  set l := contents ⟨1, k, v, n⟩ with hl0
  have hset : (l ++ [0]).set n val = l ++ [val] := by
    rw [← hl]; simp [List.set_append]
  obtain ⟨l2, h1, h2, h3, h4⟩ := insert_loop_spec 1 k (n + 1) hk fuel (l ++ [val]) n
    (by simp; omega) hf
  refine ⟨⟨1, k, some l2, n + 1⟩, ?_, ⟨rfl, hk, ?_⟩, rfl, rfl, by simp, ?_, ?_⟩
  · simp only [heap_insert, ne_eq, not_true_eq_false, if_false, hr, bind, Res.bind]
    rw [vals_set_some 1 k _ _ _ _ (by simp; omega)]
    simp only [Nat.add_sub_cancel, hset]
    exact h1
  · simp only [contents, Option.getD_some, h2, List.length_append, List.length_singleton, hl]
  · simp only [contents, Option.getD_some]
    exact h3.trans (List.perm_append_singleton val _)
  · intro hp
    rw [heap_property_iff _ hl] at hp
    rw [heap_property_iff _ (by simp [contents, h2, hl])]
    simp only [contents, Option.getD_some]
    apply h4
    rw [← hl]
    exact up_inv_append k _ val hp

theorem shrink_cons (x : Int) (t : List Int) (ht : t ≠ []) :
    shrink (x :: t) = t.getLast ht :: t.dropLast := by
  have hlen : 0 < t.length := List.length_pos.mpr ht
  have e : (x :: t).getD (t.length) 0 = t.getLast ht := by
    rw [List.getLast_eq_getElem]
    obtain ⟨m, hm⟩ : ∃ m, t.length = m + 1 := ⟨t.length - 1, by omega⟩
    simp [hm, List.getD_eq_getElem?_getD, List.getElem?_eq_getElem]
  simp only [shrink, List.length_cons, Nat.add_sub_cancel, e, List.set_cons_zero]
  obtain ⟨m, hm⟩ : ∃ m, t.length = m + 1 := ⟨t.length - 1, by omega⟩
  rw [hm, List.take_succ_cons, List.dropLast_eq_take, hm]
  rfl

theorem shrink_length (l : List Int) : (shrink l).length = l.length - 1 := by
  simp [shrink]

theorem shrink_getD (l : List Int) (j : Nat) (h1 : j ≠ 0) (h2 : j < l.length - 1) :
    (shrink l).getD j 0 = l.getD j 0 := by
  simp only [shrink, List.getD_eq_getElem?_getD, List.getElem?_take, if_pos h2,
    List.getElem?_set]
  have : ¬ 0 = j := fun e => h1 e.symm
  rw [if_neg this]

theorem shrink_perm (l : List Int) (h : 2 ≤ l.length) : l.Perm (l.getD 0 0 :: shrink l) := by
  match l, h with
  | x :: t, h =>
    have ht : t ≠ [] := by intro e; subst e; simp at h
    rw [shrink_cons x t ht]
    simp only [List.getD_cons_zero]
    apply List.Perm.cons
    have := List.dropLast_append_getLast ht
    conv_lhs => rw [← this]
    exact List.perm_append_singleton _ _

theorem down_inv_shrink (k : Int) (l : List Int) (h : is_heap k l) : down_inv k (shrink l) 0 := by
  constructor
  · intro j hj hj0 hp
    by_cases h2 : 2 ≤ l.length
    · rw [shrink_length l] at hj
      have hpj := parent_lt j hj0
      have hp0 : parent j ≠ 0 := hp
      rw [shrink_getD l j hj0 hj, shrink_getD l _ hp0 (by omega)]
      exact h j (by omega) hj0
    · simp [shrink] at hj; omega
  · intro j _ _ _ h0
    exact absurd rfl h0

theorem heap_extract_spec (fuel : Nat) (h : heap) (val : Int) (hok : heap_ok h)
    (hpos : 0 < h.len) (hf : h.len ≤ fuel) :
    ∃ h2, heap_extract fuel true h val = .ok (1, h2, (contents h).getD 0 0) ∧ heap_ok h2 ∧
      h2.heap_type = h.heap_type ∧ h2.len + 1 = h.len ∧ (h2.vals = none ↔ h2.len = 0) ∧
      (contents h).Perm ((contents h).getD 0 0 :: contents h2) ∧
      (heap_property h → heap_property h2) := by
  obtain ⟨a, k, v, n⟩ := h
  obtain ⟨ha, hk, hl⟩ := hok
  simp only at ha hk hl hf hpos
  subst ha
  cases v with
  | none => simp [contents] at hl; omega
  | some l =>
    simp only [contents, Option.getD_some] at hl ⊢
    have h0 : ¬ n = 0 := by omega
    by_cases h1 : n = 1
    · subst h1
      refine ⟨⟨1, k, none, 0⟩, ?_, ⟨rfl, hk, rfl⟩, rfl, rfl, by simp, ?_, ?_⟩
      · simp only [heap_extract, ne_eq, not_true_eq_false, if_false, bind, Res.bind,
          vals_get_some 1 k l 1 0 (by omega), if_true]
        rfl
      · match l, hl with
        | [x], _ => simp
      · intro _ i hi; simp at hi
    · have h2 : 2 ≤ l.length := by omega
      obtain ⟨l2, e1, e2, e3, e4⟩ := extract_loop_spec 1 k (n - 1) hk fuel (shrink l) 0
        (by rw [shrink_length l, hl]) (by omega) (by omega)
      refine ⟨⟨1, k, some l2, n - 1⟩, ?_, ⟨rfl, hk, ?_⟩, rfl, by simp only; omega, ?_, ?_, ?_⟩
      · have hr : realloc true (some (l.set 0 (l.getD (n - 1) 0))) (n - 1) = some (shrink l) := by
          simp only [realloc, if_true, Option.getD_some, List.length_set, shrink, hl]
          have : n - 1 - n = 0 := by omega
          rw [this]; simp
        simp only [heap_extract, ne_eq, not_true_eq_false, if_false, bind, Res.bind,
          vals_get_some 1 k l n 0 (by omega), if_neg h0, if_neg h1,
          vals_get_some 1 k l n (n - 1) (by omega), vals_set_some 1 k l n 0 _ (by omega), hr, e1]
        rfl
      · simp only [contents, Option.getD_some, e2, shrink_length l, hl]
      · simp only; constructor
        · intro e; cases e
        · intro e; omega
      · exact (shrink_perm l h2).trans (List.Perm.cons _ e3.symm)
      · intro hp
        rw [heap_property_iff _ (by simp [contents, hl])] at hp
        rw [heap_property_iff _ (by simp [contents, e2, shrink_length l, hl])]
        simp only [contents, Option.getD_some] at hp ⊢
        exact e4 (down_inv_shrink k l hp)

/-! ## Fields left alone by the loops -/

theorem same_frame_refl (h : heap) : same_frame h h := ⟨rfl, rfl, rfl, Iff.rfl, rfl⟩

theorem same_frame_trans (h1 h2 h3 : heap) (a : same_frame h1 h2) (b : same_frame h2 h3) :
    same_frame h1 h3 :=
  ⟨b.1.trans a.1, b.2.1.trans a.2.1, b.2.2.1.trans a.2.2.1, b.2.2.2.1.trans a.2.2.2.1,
    b.2.2.2.2.trans a.2.2.2.2⟩

theorem bind_eq_ok {α β : Type} (r : Res α) (f : α → Res β) (b : β)
    (h : (r >>= f) = .ok b) : ∃ a, r = .ok a ∧ f a = .ok b := by
  cases r with
  | ok a => exact ⟨a, rfl, h⟩
  | out_of_fuel => cases h
  | out_of_bounds => cases h

theorem vals_set_frame (h h2 : heap) (i : Nat) (v : Int) (e : vals_set h i v = .ok h2) :
    same_frame h h2 := by
  obtain ⟨a, k, vs, n⟩ := h
  cases vs with
  | none => simp [vals_set] at e
  | some l =>
    simp only [vals_set] at e
    split_ifs at e
    cases e
    exact ⟨rfl, rfl, rfl, by simp, by simp [contents]⟩

theorem swap_frame (h h2 : heap) (p c : Nat) (e : swap h p c = .ok h2) : same_frame h h2 := by
  unfold swap at e
  obtain ⟨_, -, e⟩ := bind_eq_ok _ _ _ e
  obtain ⟨_, -, e⟩ := bind_eq_ok _ _ _ e
  obtain ⟨h1, e1, e⟩ := bind_eq_ok _ _ _ e
  exact same_frame_trans _ _ _ (vals_set_frame _ _ _ _ e1) (vals_set_frame _ _ _ _ e)

theorem insert_loop_frame : ∀ (fuel : Nat) (h : heap) (i : Nat) (r : Int) (h2 : heap),
    insert_loop fuel h i = .ok (r, h2) → r = 1 ∧ same_frame h h2 := by
  intro fuel
  induction fuel with
  | zero => intro h i r h2 e; simp [insert_loop] at e
  | succ fuel ih =>
    intro h i r h2 e
    rw [insert_loop] at e
    by_cases hi0 : i = 0
    · rw [if_pos hi0] at e
      cases e; exact ⟨rfl, same_frame_refl _⟩
    · rw [if_neg hi0] at e
      obtain ⟨c, hc, e⟩ := bind_eq_ok _ _ _ e
      by_cases hc0 : c = 0
      · rw [if_neg (not_not.mpr hc0)] at e
        obtain ⟨ret, hret, e⟩ := bind_eq_ok _ _ _ e
        rw [hc] at hret
        cases hret
        subst hc0
        rw [if_neg (by decide)] at e
        obtain ⟨h1, hs, e⟩ := bind_eq_ok _ _ _ e
        obtain ⟨hr, hfr⟩ := ih _ _ _ _ e
        exact ⟨hr, same_frame_trans _ _ _ (swap_frame _ _ _ _ hs) hfr⟩
      · rw [if_pos hc0] at e
        cases e; exact ⟨rfl, same_frame_refl _⟩

/-- One iteration of sift-down at a node with two children, after the child
`c` has been picked. -/
theorem extract_step_frame (fuel : Nat) (h : heap) (i c : Nat) (r : Int) (h2 : heap)
    (ih : ∀ (h : heap) (i : ℕ) (r : ℤ) (h2 : heap),
      extract_loop fuel h i = Res.ok (r, h2) → (r = 1 ∨ r = -1) ∧ same_frame h h2)
    (e : (do
      let ret ← property h i c
      if ret = -1 then pure (-1, h)
      else do
        let h1 ← if ret = 0 then swap h i c else pure h
        extract_loop fuel h1 c) = Res.ok (r, h2)) :
    (r = 1 ∨ r = -1) ∧ same_frame h h2 := by
  obtain ⟨ret, -, e⟩ := bind_eq_ok _ _ _ e
  by_cases h1 : ret = -1
  · rw [if_pos h1] at e
    cases e; exact ⟨Or.inr rfl, same_frame_refl _⟩
  · rw [if_neg h1] at e
    by_cases h0 : ret = 0
    · simp only [if_pos h0] at e
      obtain ⟨h1, hs, e⟩ := bind_eq_ok _ _ _ e
      obtain ⟨hr, hfr⟩ := ih _ _ _ _ e
      exact ⟨hr, same_frame_trans _ _ _ (swap_frame _ _ _ _ hs) hfr⟩
    · simp only [if_neg h0] at e
      obtain ⟨h1, hs, e⟩ := bind_eq_ok _ _ _ e
      cases hs
      exact ih _ _ _ _ e

theorem extract_loop_frame : ∀ (fuel : Nat) (h : heap) (i : Nat) (r : Int) (h2 : heap),
    extract_loop fuel h i = .ok (r, h2) → (r = 1 ∨ r = -1) ∧ same_frame h h2 := by
  intro fuel
  induction fuel with
  | zero => intro h i r h2 e; simp [extract_loop] at e
  | succ fuel ih =>
    intro h i r h2 e
    rw [extract_loop] at e
    split_ifs at e with c1 c2 c3 c4
    · cases e; exact ⟨Or.inl rfl, same_frame_refl _⟩
    · obtain ⟨ret, -, e⟩ := bind_eq_ok _ _ _ e
      split_ifs at e
      · cases e; exact ⟨Or.inr rfl, same_frame_refl _⟩
      · obtain ⟨h1, hs, e⟩ := bind_eq_ok _ _ _ e
        cases e; exact ⟨Or.inl rfl, swap_frame _ _ _ _ hs⟩
      · cases e; exact ⟨Or.inl rfl, same_frame_refl _⟩
    · obtain ⟨c, -, e⟩ := bind_eq_ok _ _ _ e
      exact extract_step_frame fuel h i c r h2 ih e
    · obtain ⟨c, -, e⟩ := bind_eq_ok _ _ _ e
      exact extract_step_frame fuel h i c r h2 ih e
    · exact ih _ _ _ _ e

/-! ## Consequences for the public operations -/

theorem heap_insert_realloc_fails (fuel : Nat) (h : heap) (val : Int) :
    heap_insert fuel false h val = .ok (-1, h) := by
  unfold heap_insert
  split_ifs
  · rfl
  · simp [realloc]; rfl

theorem root_extremal (k : Int) (l : List Int) (hk : k = min_heap ∨ k = max_heap)
    (h : is_heap k l) : ∀ j, j < l.length → ordering k (l.getD 0 0) (l.getD j 0) := by
  intro j
  induction j using Nat.strong_induction_on with
  | _ j ih =>
    intro hj
    by_cases hj0 : j = 0
    · subst hj0; exact ordering_refl k _ hk
    · have hp := parent_lt j hj0
      exact ordering_trans k _ _ _ (ih (parent j) hp (by omega)) (h j hj hj0)

theorem heap_extract_realloc_fails (fuel : Nat) (h : heap) (val : Int) (r : Int) (h2 : heap)
    (v : Int) (e : heap_extract fuel false h val = .ok (r, h2, v)) (hr : r = 1) :
    heap_extract fuel true h val = .ok (r, h2, v) := by
  unfold heap_extract at e ⊢
  split_ifs at e ⊢ with c1 c2 c3 c4
  · exact e
  · exact e
  · exact e
  · exact e
  · obtain ⟨root, e1, e⟩ := bind_eq_ok _ _ _ e
    obtain ⟨last, e2, e⟩ := bind_eq_ok _ _ _ e
    obtain ⟨h1, e3, e⟩ := bind_eq_ok _ _ _ e
    simp only [realloc, Bool.false_eq_true, if_false] at e
    cases e
    cases hr

theorem heap_insert_inv (fuel : Nat) (ok : Bool) (h : heap) (val : Int) (r : Int) (h2 : heap)
    (e : heap_insert fuel ok h val = .ok (r, h2)) :
    (r = -1 ∧ h2 = h) ∨
    (r = 1 ∧ ok = true ∧ h.initialized = 1 ∧ h2.initialized = h.initialized ∧
      h2.heap_type = h.heap_type ∧ h2.len = h.len + 1 ∧ h2.vals ≠ none) := by
  unfold heap_insert at e
  by_cases hi : h.initialized ≠ 1
  · rw [if_pos hi] at e
    cases e; exact Or.inl ⟨rfl, rfl⟩
  · rw [if_neg hi] at e
    cases ok with
    | false =>
      simp only [realloc, Bool.false_eq_true, if_false] at e
      cases e; exact Or.inl ⟨rfl, rfl⟩
    | true =>
      simp only [realloc, if_true] at e
      obtain ⟨h1, e1, e⟩ := bind_eq_ok _ _ _ e
      obtain ⟨hr, hfr⟩ := insert_loop_frame _ _ _ _ _ e
      have hf1 := vals_set_frame _ _ _ _ e1
      have hf := same_frame_trans _ _ _ hf1 hfr
      obtain ⟨f1, f2, f3, f4, -⟩ := hf
      refine Or.inr ⟨hr, rfl, by simpa using hi, f1, f2, f3, ?_⟩
      intro hn
      have := f4.1 hn
      simp at this

theorem heap_extract_inv (fuel : Nat) (ok : Bool) (h : heap) (val : Int) (r : Int) (h2 : heap)
    (out : Int) (e : heap_extract fuel ok h val = .ok (r, h2, out)) :
    h2.initialized = h.initialized ∧ h2.heap_type = h.heap_type ∧
    (r = 1 ∨ r = 0 ∨ r = -1) ∧
    (r = 1 → h.initialized = 1 ∧ h.vals ≠ none ∧ h2.len + 1 = h.len ∧
      (h2.vals = none ↔ h2.len = 0)) := by
  unfold heap_extract at e
  split_ifs at e with c1 c2 c3 c4
  · cases e; exact ⟨rfl, rfl, by decide, fun h => by cases h⟩
  · cases e; exact ⟨rfl, rfl, by decide, fun h => by cases h⟩
  · cases e; exact ⟨rfl, rfl, by decide, fun h => by cases h⟩
  · obtain ⟨root, -, e⟩ := bind_eq_ok _ _ _ e
    cases e
    exact ⟨rfl, rfl, by decide, fun _ => ⟨by simpa using c1, c2, by simp [c4], by simp⟩⟩
  · obtain ⟨root, -, e⟩ := bind_eq_ok _ _ _ e
    obtain ⟨last, -, e⟩ := bind_eq_ok _ _ _ e
    obtain ⟨h1, e1, e⟩ := bind_eq_ok _ _ _ e
    obtain ⟨g1, g2, g3, g4, -⟩ := vals_set_frame _ _ _ _ e1
    cases ok with
    | false =>
      simp only [realloc, Bool.false_eq_true, if_false] at e
      cases e
      exact ⟨g1, g2, by decide, fun h => by cases h⟩
    | true =>
      simp only [realloc, if_true] at e
      obtain ⟨⟨ret, h3⟩, e3, e⟩ := bind_eq_ok _ _ _ e
      cases e
      obtain ⟨hr, f1, f2, f3, f4, -⟩ := extract_loop_frame _ _ _ _ _ e3
      simp only at f1 f2 f3 f4
      refine ⟨f1.trans g1, f2.trans g2, by omega, fun _ => ⟨by simpa using c1, c2, ?_, ?_⟩⟩
      · rw [f3, g3]; omega
      · rw [f3, g3]
        constructor
        · intro hn; have := f4.1 hn; simp at this
        · intro hn; omega

/-! ## Call sequences -/

theorem insert_all_spec (fuel : Nat) : ∀ (xs : List Int) (h : heap), heap_ok h →
    h.len + xs.length ≤ fuel →
    ∃ h1, insert_all fuel xs h = .ok (List.replicate xs.length 1, h1) ∧ heap_ok h1 ∧
      h1.heap_type = h.heap_type ∧ h1.len = h.len + xs.length ∧
      (contents h1).Perm (xs ++ contents h) ∧ (heap_property h → heap_property h1) := by
  intro xs
  induction xs with
  | nil =>
    intro h hok _
    exact ⟨h, rfl, hok, rfl, rfl, List.Perm.refl _, id⟩
  | cons x xs ih =>
    intro h hok hf
    simp only [List.length_cons] at hf
    obtain ⟨h1, e1, hok1, hk1, hl1, -, hp1, hh1⟩ := heap_insert_spec fuel h x hok (by omega)
    obtain ⟨h2, e2, hok2, hk2, hl2, hp2, hh2⟩ := ih h1 hok1 (by omega)
    refine ⟨h2, ?_, hok2, hk2.trans hk1, by rw [hl2, hl1, List.length_cons]; omega, ?_,
      fun hp => hh2 (hh1 hp)⟩
    · simp only [insert_all, bind, Res.bind, e1, e2, List.length_cons, List.replicate_succ]
      rfl
    · refine hp2.trans ?_
      refine (List.Perm.append_left xs hp1).trans ?_
      simp only [List.cons_append]
      exact List.perm_middle

theorem extract_n_spec (fuel : Nat) : ∀ (n : Nat) (h : heap) (val : Int), heap_ok h →
    heap_property h → h.len = n → n ≤ fuel →
    ∃ vs h2, extract_n fuel n h val = .ok (vs.map (fun v => (1, v)), h2) ∧
      h2.len = 0 ∧ vs.Perm (contents h) ∧ List.Pairwise (ordering h.heap_type) vs := by
  intro n
  induction n with
  | zero =>
    intro h val hok _ hn _
    refine ⟨[], h, rfl, hn, ?_, List.Pairwise.nil⟩
    have : contents h = [] := List.length_eq_zero.mp (by rw [hok.2.2, hn])
    rw [this]
  | succ n ih =>
    intro h val hok hprop hn hf
    obtain ⟨h1, e1, hok1, hk1, hl1, -, hp1, hh1⟩ :=
      heap_extract_spec fuel h val hok (by omega) (by omega)
    obtain ⟨vs, h2, e2, hl2, hp2, hs2⟩ :=
      ih h1 ((contents h).getD 0 0) hok1 (hh1 hprop) (by omega) (by omega)
    refine ⟨(contents h).getD 0 0 :: vs, h2, ?_, hl2, ?_, ?_⟩
    · simp only [extract_n, bind, Res.bind, e1, e2, List.map_cons]
      rfl
    · exact (List.Perm.cons _ hp2).trans hp1.symm
    · rw [hk1] at hs2
      refine List.Pairwise.cons ?_ hs2
      intro x hx
      have hx1 : x ∈ contents h := by
        have : x ∈ (contents h).getD 0 0 :: contents h1 := List.mem_cons_of_mem _ (hp2.subset hx)
        exact hp1.symm.subset this
      obtain ⟨j, hj, rfl⟩ := List.getElem_of_mem hx1
      have := root_extremal h.heap_type (contents h) hok.2.1
        ((heap_property_iff h hok.2.2).1 hprop) j hj
      simpa [List.getD_eq_getElem?_getD, List.getElem?_eq_getElem hj] using this

theorem heap_ok_new (b : heap) (k : Int) (hk : k = min_heap ∨ k = max_heap) :
    heap_ok ( heap_initialize b k) ∧ heap_property ( heap_initialize b k) := by
  refine ⟨⟨rfl, hk, rfl⟩, ?_⟩
  intro i hi
  simp [ heap_initialize] at hi

theorem sorted_for_eq (k : Int) (hk : k = min_heap ∨ k = max_heap) (xs vs : List Int)
    (hp : vs.Perm xs) (hs : List.Pairwise (ordering k) vs) : vs = sorted_for k xs := by
  rcases hk with rfl | rfl
  · have h1 : List.Sorted (fun a b : Int => a ≤ b) vs := by
      refine List.Pairwise.imp ?_ hs
      intro a b hab
      rcases hab with ⟨-, h⟩ | ⟨h, -⟩
      · exact h
      · cases h
    simp only [sorted_for, if_true]
    exact List.eq_of_perm_of_sorted (hp.trans (List.perm_insertionSort _ xs).symm) h1
      (List.sorted_insertionSort _ xs)
  · have h1 : List.Sorted (fun a b : Int => a ≥ b) vs := by
      refine List.Pairwise.imp ?_ hs
      intro a b hab
      rcases hab with ⟨h, -⟩ | ⟨-, h⟩
      · cases h
      · exact h
    have e : ¬ max_heap = min_heap := by decide
    simp only [sorted_for, if_neg e]
    exact List.eq_of_perm_of_sorted (hp.trans (List.perm_insertionSort _ xs).symm) h1
      (List.sorted_insertionSort _ xs)

theorem sorted_of_pairwise_min (vs : List Int) (h : List.Pairwise (ordering min_heap) vs) :
    List.Sorted (fun a b : Int => a ≤ b) vs := by
  refine List.Pairwise.imp ?_ h
  intro a b hab
  rcases hab with ⟨-, h⟩ | ⟨h, -⟩
  · exact h
  · cases h

theorem sorted_of_pairwise_max (vs : List Int) (h : List.Pairwise (ordering max_heap) vs) :
    List.Sorted (fun a b : Int => a ≥ b) vs := by
  refine List.Pairwise.imp ?_ h
  intro a b hab
  rcases hab with ⟨h, -⟩ | ⟨-, h⟩
  · cases h
  · exact h

theorem run_calls_spec (fuel : Nat) : ∀ (cs : List call) (h : heap) (val : Int), heap_ok h →
    (∀ n, n ≤ cs.length → extracts (cs.take n) ≤ h.len + inserts (cs.take n)) →
    h.len + cs.length ≤ fuel →
    ∃ h1, run_calls fuel cs h val = .ok (List.replicate cs.length 1, h1) ∧
      h1.len + extracts cs = h.len + inserts cs := by
  intro cs
  induction cs with
  | nil =>
    intro h val _ _ _
    exact ⟨h, rfl, rfl⟩
  | cons c cs ih =>
    intro h val hok hpre hf
    simp only [List.length_cons] at hf
    cases c with
    | insert x =>
      obtain ⟨h1, e1, hok1, -, hl1, -⟩ := heap_insert_spec fuel h x hok (by omega)
      obtain ⟨h2, e2, hl2⟩ := ih h1 val hok1 (by
        intro n hn
        have := hpre (n + 1) (by simp only [List.length_cons]; omega)
        simp only [List.take_succ_cons, extracts, inserts] at this
        omega) (by omega)
      refine ⟨h2, ?_, by simp only [extracts, inserts]; omega⟩
      simp only [run_calls, bind, Res.bind, e1, e2, List.length_cons, List.replicate_succ]
      rfl
    | extract =>
      have hpos : 0 < h.len := by
        have := hpre 1 (by simp only [List.length_cons]; omega)
        simp only [List.take_succ_cons, List.take_zero, extracts, inserts] at this
        omega
      obtain ⟨h1, e1, hok1, -, hl1, -⟩ := heap_extract_spec fuel h val hok hpos (by omega)
      obtain ⟨h2, e2, hl2⟩ := ih h1 ((contents h).getD 0 0) hok1 (by
        intro n hn
        have := hpre (n + 1) (by simp only [List.length_cons]; omega)
        simp only [List.take_succ_cons, extracts, inserts] at this
        omega) (by omega)
      refine ⟨h2, ?_, by simp only [extracts, inserts]; omega⟩
      simp only [run_calls, bind, Res.bind, e1, e2, List.length_cons, List.replicate_succ]
      rfl

theorem reachable_inv (h : heap) (hr : reachable h) :
    h.initialized = 1 ∧ (h.vals = none ↔ h.len = 0) := by
  induction hr with
  | new b k h e =>
    simp only [new_heap, Option.some.injEq] at e
    subst e
    exact ⟨rfl, by simp [ heap_initialize]⟩
  | insert fuel ok h val h2 _ e ih =>
    rcases heap_insert_inv fuel ok h val 1 h2 e with ⟨h1, -⟩ | ⟨-, -, hi, hi2, -, hl, hv⟩
    · cases h1
    · refine ⟨hi2.trans hi, ?_⟩
      constructor
      · intro hn; exact absurd hn hv
      · intro hn; omega
  | extract fuel ok h val h2 out _ e ih =>
    obtain ⟨hi, -, -, hr⟩ := heap_extract_inv fuel ok h val 1 h2 out e
    obtain ⟨-, -, -, hv⟩ := hr rfl
    exact ⟨hi.trans ih.1, hv⟩

/-! ## More fuel does not change a result -/

theorem bind_ok_of {α β : Type} (r : Res α) (f g : α → Res β) (b : β)
    (hfg : ∀ a, f a = .ok b → g a = .ok b) (e : (r >>= f) = .ok b) : (r >>= g) = .ok b := by
  obtain ⟨a, rfl, e⟩ := bind_eq_ok _ _ _ e
  exact hfg a e

theorem insert_loop_mono : ∀ (fuel : Nat) (h : heap) (i : Nat) (r : Int × heap),
    insert_loop fuel h i = .ok r → ∀ d, insert_loop (fuel + d) h i = .ok r := by
  intro fuel
  induction fuel with
  | zero => intro h i r e; simp [insert_loop] at e
  | succ fuel ih =>
    intro h i r e d
    have hd : fuel + 1 + d = (fuel + d) + 1 := by omega
    rw [hd, insert_loop]
    rw [insert_loop] at e
    by_cases hi0 : i = 0
    · rw [if_pos hi0] at e ⊢; exact e
    · rw [if_neg hi0] at e ⊢
      refine bind_ok_of _ _ _ _ ?_ e
      intro c e
      by_cases hc : c ≠ 0
      · rw [if_pos hc] at e ⊢; exact e
      · rw [if_neg hc] at e ⊢
        refine bind_ok_of _ _ _ _ ?_ e
        intro ret e
        by_cases hr : ret = -1
        · rw [if_pos hr] at e ⊢; exact e
        · rw [if_neg hr] at e ⊢
          refine bind_ok_of _ _ _ _ ?_ e
          intro h1 e
          exact ih _ _ _ e d

theorem extract_step_mono (fuel d : Nat) (h : heap) (i c : Nat) (r : Int × heap)
    (ih : ∀ (h : heap) (i : Nat) (r : Int × heap),
      extract_loop fuel h i = .ok r → ∀ d, extract_loop (fuel + d) h i = .ok r)
    (e : (do
      let ret ← property h i c
      if ret = -1 then pure (-1, h)
      else do
        let h1 ← if ret = 0 then swap h i c else pure h
        extract_loop fuel h1 c) = Res.ok r) :
    (do
      let ret ← property h i c
      if ret = -1 then pure (-1, h)
      else do
        let h1 ← if ret = 0 then swap h i c else pure h
        extract_loop (fuel + d) h1 c) = Res.ok r := by
  refine bind_ok_of _ _ _ _ ?_ e
  intro ret e
  by_cases h1 : ret = -1
  · rw [if_pos h1] at e ⊢; exact e
  · rw [if_neg h1] at e ⊢
    by_cases h0 : ret = 0
    · simp only [if_pos h0] at e ⊢
      refine bind_ok_of _ _ _ _ ?_ e
      intro h1 e
      exact ih _ _ _ e d
    · simp only [if_neg h0] at e ⊢
      refine bind_ok_of _ _ _ _ ?_ e
      intro h1 e
      exact ih _ _ _ e d

theorem extract_loop_mono : ∀ (fuel : Nat) (h : heap) (i : Nat) (r : Int × heap),
    extract_loop fuel h i = .ok r → ∀ d, extract_loop (fuel + d) h i = .ok r := by
  intro fuel
  induction fuel with
  | zero => intro h i r e; simp [extract_loop] at e
  | succ fuel ih =>
    intro h i r e d
    have hd : fuel + 1 + d = (fuel + d) + 1 := by omega
    rw [hd, extract_loop]
    rw [extract_loop] at e
    split_ifs at e ⊢ with c1 c2 c3 c4
    · exact e
    · exact e
    · refine bind_ok_of _ _ _ _ ?_ e
      intro c e
      exact extract_step_mono fuel d h i c r ih e
    · refine bind_ok_of _ _ _ _ ?_ e
      intro c e
      exact extract_step_mono fuel d h i c r ih e
    · exact ih _ _ _ e d

theorem heap_insert_mono (fuel : Nat) (ok : Bool) (h : heap) (val : Int) (r : Int × heap)
    (e : heap_insert fuel ok h val = .ok r) (d : Nat) :
    heap_insert (fuel + d) ok h val = .ok r := by
  unfold heap_insert at e ⊢
  split_ifs at e ⊢ with c1
  · exact e
  · cases hr : realloc ok h.vals (h.len + 1) with
    | none => rw [hr] at e; exact e
    | some nv =>
      rw [hr] at e
      simp only at e ⊢
      refine bind_ok_of _ _ _ _ ?_ e
      intro h2 e
      exact insert_loop_mono _ _ _ _ e d

theorem heap_extract_mono (fuel : Nat) (ok : Bool) (h : heap) (val : Int)
    (r : Int × heap × Int) (e : heap_extract fuel ok h val = .ok r) (d : Nat) :
    heap_extract (fuel + d) ok h val = .ok r := by
  unfold heap_extract at e ⊢
  split_ifs at e ⊢ with c1 c2 c3 c4
  · exact e
  · exact e
  · exact e
  · exact e
  · refine bind_ok_of _ _ _ _ ?_ e
    intro root e
    refine bind_ok_of _ _ _ _ ?_ e
    intro last e
    refine bind_ok_of _ _ _ _ ?_ e
    intro h1 e
    cases hr : realloc ok h1.vals (h1.len - 1) with
    | none => rw [hr] at e; exact e
    | some nv =>
      rw [hr] at e
      simp only at e ⊢
      obtain ⟨p, e1, e⟩ := bind_eq_ok _ _ _ e
      rw [extract_loop_mono _ _ _ _ e1 d]
      exact e

/-! ## Single iterations and entry into the loops -/

theorem heap_insert_entry (fuel : Nat) (k : Int) (v : Option (List Int)) (n : Nat) (val : Int)
    (hl : (v.getD []).length = n) :
    heap_insert fuel true ⟨1, k, v, n⟩ val =
      insert_loop fuel ⟨1, k, some (v.getD [] ++ [val]), n + 1⟩ n := by
  have hr : realloc true v (n + 1) = some (v.getD [] ++ [0]) := by
    simp only [realloc, if_true]
    rw [List.take_of_length_le (by omega)]
    have : n + 1 - (v.getD []).length = 1 := by omega
    rw [this]; rfl
  have hset : (v.getD [] ++ [0]).set n val = v.getD [] ++ [val] := by
    rw [← hl]; simp [List.set_append]
  simp only [heap_insert, ne_eq, not_true_eq_false, if_false, hr, bind, Res.bind]
  rw [vals_set_some 1 k _ _ _ _ (by simp; omega)]
  simp only [Nat.add_sub_cancel, hset]

theorem heap_extract_entry (fuel : Nat) (k : Int) (l : List Int) (n : Nat) (val : Int)
    (hl : l.length = n) (h2 : 2 ≤ n) :
    heap_extract fuel true ⟨1, k, some l, n⟩ val =
      Res.bind (extract_loop fuel ⟨1, k, some (shrink l), n - 1⟩ 0)
        (fun p => .ok (p.1, p.2, l.getD 0 0)) := by
  have h0 : ¬ n = 0 := by omega
  have h1 : ¬ n = 1 := by omega
  have hr : realloc true (some (l.set 0 (l.getD (n - 1) 0))) (n - 1) = some (shrink l) := by
    simp only [realloc, if_true, Option.getD_some, List.length_set, shrink, hl]
    have : n - 1 - n = 0 := by omega
    rw [this]; simp
  simp only [heap_extract, ne_eq, not_true_eq_false, if_false, bind, Res.bind,
    vals_get_some 1 k l n 0 (by omega), if_neg h0, if_neg h1,
    vals_get_some 1 k l n (n - 1) (by omega), vals_set_some 1 k l n 0 _ (by omega), hr]
  cases extract_loop fuel ⟨1, k, some (shrink l), n - 1⟩ 0 <;> rfl

theorem heap_extract_shrink_fails (fuel : Nat) (k : Int) (l : List Int) (n : Nat) (val : Int)
    (hl : l.length = n) (h2 : 2 ≤ n) :
    heap_extract fuel false ⟨1, k, some l, n⟩ val =
      .ok (-1, ⟨1, k, some (l.set 0 (l.getD (n - 1) 0)), n⟩, l.getD 0 0) := by
  have h0 : ¬ n = 0 := by omega
  have h1 : ¬ n = 1 := by omega
  simp only [heap_extract, ne_eq, not_true_eq_false, if_false, bind, Res.bind,
    vals_get_some 1 k l n 0 (by omega), if_neg h0, if_neg h1,
    vals_get_some 1 k l n (n - 1) (by omega), vals_set_some 1 k l n 0 _ (by omega), realloc,
    Bool.false_eq_true]
  rfl

theorem heap_extract_one (fuel : Nat) (ok : Bool) (k : Int) (l : List Int) (val : Int)
    (hl : l.length = 1) :
    heap_extract fuel ok ⟨1, k, some l, 1⟩ val = .ok (1, ⟨1, k, none, 0⟩, l.getD 0 0) := by
  simp only [heap_extract, ne_eq, not_true_eq_false, if_false, bind, Res.bind,
    vals_get_some 1 k l 1 0 (by omega), if_true]
  rfl

theorem insert_loop_zero (fuel : Nat) (h : heap) : insert_loop (fuel + 1) h 0 = .ok (1, h) := by
  simp only [insert_loop, if_true]; rfl

theorem insert_loop_step (a k : Int) (l : List Int) (n i fuel : Nat)
    (hk : k = min_heap ∨ k = max_heap) (hi : i < l.length) (hi0 : i ≠ 0) :
    insert_loop (fuel + 1) ⟨a, k, some l, n⟩ i =
      if ordering k (l.getD (parent i) 0) (l.getD i 0) then .ok (1, ⟨a, k, some l, n⟩)
      else insert_loop fuel ⟨a, k, some (lswap l (parent i) i), n⟩ (parent i) := by
  have hpi := parent_lt i hi0
  have hp : parent i < l.length := by omega
  by_cases hord : ordering k (l.getD (parent i) 0) (l.getD i 0)
  · simp only [insert_loop, if_neg hi0, bind, Res.bind, property_some a k l n _ _ hk hp hi,
      if_pos hord]
    rfl
  · simp only [insert_loop, if_neg hi0, bind, Res.bind, property_some a k l n _ _ hk hp hi,
      if_neg hord, swap_some a k l n _ _ hp hi]
    rfl

theorem extract_loop_leaf (a k : Int) (v : Option (List Int)) (n i fuel : Nat) (hn : 0 < n)
    (hL : ¬ 2 * i + 1 < n) :
    extract_loop (fuel + 1) ⟨a, k, v, n⟩ i = .ok (1, ⟨a, k, v, n⟩) := by
  have hR : ¬ 2 * i + 2 < n := by omega
  rw [extract_loop]
  simp only [no_children, has_left_iff a k _ n i hn,
    has_right_iff a k _ n i hn, hL, hR, decide_False, Bool.not_false, Bool.and_self]
  rfl

theorem extract_loop_left (a k : Int) (l : List Int) (n i fuel : Nat)
    (hk : k = min_heap ∨ k = max_heap) (hn : n = l.length) (hL : 2 * i + 1 < n)
    (hR : ¬ 2 * i + 2 < n) :
    extract_loop (fuel + 1) ⟨a, k, some l, n⟩ i =
      if ordering k (l.getD i 0) (l.getD (2 * i + 1) 0) then .ok (1, ⟨a, k, some l, n⟩)
      else .ok (1, ⟨a, k, some (lswap l i (2 * i + 1)), n⟩) := by
  have hn0 : 0 < n := by omega
  have hil : i < l.length := by omega
  have hLl : 2 * i + 1 < l.length := by omega
  by_cases hord : ordering k (l.getD i 0) (l.getD (2 * i + 1) 0)
  · rw [extract_loop]
    simp only [no_children, left_no_right, has_left_iff a k _ n i hn0,
      has_right_iff a k _ n i hn0, hL, hR, decide_True, decide_False, Bool.not_true,
      Bool.not_false, Bool.and_false, Bool.false_and, Bool.and_self, left_child,
      property_some a k l n _ _ hk hil hLl, bind, Res.bind, if_pos hord]
    rfl
  · rw [extract_loop]
    simp only [no_children, left_no_right, has_left_iff a k _ n i hn0,
      has_right_iff a k _ n i hn0, hL, hR, decide_True, decide_False, Bool.not_true,
      Bool.not_false, Bool.and_false, Bool.false_and, Bool.and_self, left_child,
      property_some a k l n _ _ hk hil hLl, bind, Res.bind, if_neg hord,
      swap_some a k l n _ _ hil hLl]
    rfl

theorem insert_loop_no_oob (a k : Int) (n : Nat) (hk : k = min_heap ∨ k = max_heap) :
    ∀ (fuel : Nat) (l : List Int) (i : Nat), i < l.length →
      insert_loop fuel ⟨a, k, some l, n⟩ i ≠ .out_of_bounds := by
  intro fuel
  induction fuel with
  | zero => intro l i _ e; simp [insert_loop] at e
  | succ fuel ih =>
    intro l i hi
    by_cases hi0 : i = 0
    · subst hi0; rw [insert_loop_zero]; intro e; cases e
    · rw [insert_loop_step a k l n i fuel hk hi hi0]
      split_ifs
      · intro e; cases e
      · have := parent_lt i hi0
        exact ih _ _ (by rw [lswap_length]; omega)

theorem extract_loop_no_oob (a k : Int) (n : Nat) (hk : k = min_heap ∨ k = max_heap) :
    ∀ (fuel : Nat) (l : List Int) (i : Nat), n = l.length → i < n →
      extract_loop fuel ⟨a, k, some l, n⟩ i ≠ .out_of_bounds := by
  intro fuel
  induction fuel with
  | zero => intro l i _ _ e; simp [extract_loop] at e
  | succ fuel ih =>
    intro l i hn hi
    by_cases hL : 2 * i + 1 < n
    · by_cases hR : 2 * i + 2 < n
      · obtain ⟨o, ho, -⟩ := chosen_child_spec k l i hk
        rw [extract_loop_two a k l n i fuel hk hn (by omega)]
        split_ifs
        · exact ih _ _ hn (by omega)
        · exact ih _ _ (by rw [lswap_length]; exact hn) (by omega)
      · rw [extract_loop_left a k l n i fuel hk hn hL hR]
        split_ifs <;> (intro e; cases e)
    · rw [extract_loop_leaf a k _ n i fuel (by omega) hL]
      intro e; cases e

theorem insert_loop_bad_type (fuel : Nat) (h : heap) (i : Nat)
    (hk : h.heap_type ≠ min_heap ∧ h.heap_type ≠ max_heap) :
    insert_loop (fuel + 1) h i = .ok (1, h) := by
  by_cases hi0 : i = 0
  · subst hi0; exact insert_loop_zero fuel h
  · simp only [insert_loop, if_neg hi0, property, if_neg hk.1, if_neg hk.2, bind, Res.bind, pure]
    rfl

theorem insert_loop_perm (a k : Int) (n : Nat) (hk : k = min_heap ∨ k = max_heap)
    (fuel : Nat) (l : List Int) (i : Nat) (r : Int) (h2 : heap) (hi : i < l.length)
    (e : insert_loop fuel ⟨a, k, some l, n⟩ i = .ok (r, h2)) :
    r = 1 ∧ (contents h2).Perm l := by
  have e2 := insert_loop_mono fuel _ i _ e (i + 1)
  obtain ⟨l2, e3, -, hp, -⟩ := insert_loop_spec a k n hk (fuel + (i + 1)) l i hi (by omega)
  rw [e3] at e2
  cases e2
  exact ⟨rfl, hp⟩

theorem extract_loop_perm (a k : Int) (n : Nat) (hk : k = min_heap ∨ k = max_heap)
    (fuel : Nat) (l : List Int) (i : Nat) (r : Int) (h2 : heap) (hn : n = l.length)
    (hi : i < n) (e : extract_loop fuel ⟨a, k, some l, n⟩ i = .ok (r, h2)) :
    r = 1 ∧ (contents h2).Perm l := by
  have e2 := extract_loop_mono fuel _ i _ e n
  obtain ⟨l2, e3, -, hp, -⟩ := extract_loop_spec a k n hk (fuel + n) l i hn hi (by omega)
  rw [e3] at e2
  cases e2
  exact ⟨rfl, hp⟩

theorem heap_extract_never_empty_result (h : heap) (hv : h.vals = none ↔ h.len = 0)
    (fuel : Nat) (ok : Bool) (val r : Int) (h2 : heap) (out : Int)
    (e : heap_extract fuel ok h val = .ok (r, h2, out)) : r ≠ 0 := by
  obtain ⟨-, -, hr, -⟩ := heap_extract_inv fuel ok h val r h2 out e
  intro h0
  subst h0
  unfold heap_extract at e
  split_ifs at e with c1 c2 c3 c4
  · cases e
  · cases e
  · exact c2 (hv.2 c3)
  · obtain ⟨root, -, e⟩ := bind_eq_ok _ _ _ e
    cases e
  · obtain ⟨root, -, e⟩ := bind_eq_ok _ _ _ e
    obtain ⟨last, -, e⟩ := bind_eq_ok _ _ _ e
    obtain ⟨h1, e1, e⟩ := bind_eq_ok _ _ _ e
    cases hre : realloc ok h1.vals (h1.len - 1) with
    | none => rw [hre] at e; cases e
    | some nv =>
      rw [hre] at e
      obtain ⟨⟨ret, h3⟩, e3, e⟩ := bind_eq_ok _ _ _ e
      cases e
      obtain ⟨hr2, -⟩ := extract_loop_frame _ _ _ _ _ e3
      omega

/-! ## The short-circuiting variant -/

theorem extract_loop_sc_leaf (a k : Int) (v : Option (List Int)) (n i fuel : Nat) (hn : 0 < n)
    (hL : ¬ 2 * i + 1 < n) :
    extract_loop_sc (fuel + 1) ⟨a, k, v, n⟩ i = .ok (1, ⟨a, k, v, n⟩) := by
  have hR : ¬ 2 * i + 2 < n := by omega
  rw [extract_loop_sc]
  simp only [no_children, has_left_iff a k _ n i hn,
    has_right_iff a k _ n i hn, hL, hR, decide_False, Bool.not_false, Bool.and_self]
  rfl

theorem extract_loop_sc_left (a k : Int) (l : List Int) (n i fuel : Nat)
    (hk : k = min_heap ∨ k = max_heap) (hn : n = l.length) (hL : 2 * i + 1 < n)
    (hR : ¬ 2 * i + 2 < n) :
    extract_loop_sc (fuel + 1) ⟨a, k, some l, n⟩ i =
      if ordering k (l.getD i 0) (l.getD (2 * i + 1) 0) then .ok (1, ⟨a, k, some l, n⟩)
      else .ok (1, ⟨a, k, some (lswap l i (2 * i + 1)), n⟩) := by
  have hn0 : 0 < n := by omega
  have hil : i < l.length := by omega
  have hLl : 2 * i + 1 < l.length := by omega
  by_cases hord : ordering k (l.getD i 0) (l.getD (2 * i + 1) 0)
  · rw [extract_loop_sc]
    simp only [no_children, left_no_right, has_left_iff a k _ n i hn0,
      has_right_iff a k _ n i hn0, hL, hR, decide_True, decide_False, Bool.not_true,
      Bool.not_false, Bool.and_false, Bool.false_and, Bool.and_self, left_child,
      property_some a k l n _ _ hk hil hLl, bind, Res.bind, if_pos hord]
    rfl
  · rw [extract_loop_sc]
    simp only [no_children, left_no_right, has_left_iff a k _ n i hn0,
      has_right_iff a k _ n i hn0, hL, hR, decide_True, decide_False, Bool.not_true,
      Bool.not_false, Bool.and_false, Bool.false_and, Bool.and_self, left_child,
      property_some a k l n _ _ hk hil hLl, bind, Res.bind, if_neg hord,
      swap_some a k l n _ _ hil hLl]
    rfl

theorem extract_loop_sc_two (a k : Int) (l : List Int) (n i fuel : Nat)
    (hk : k = min_heap ∨ k = max_heap) (hn : n = l.length) (hr : 2 * i + 2 < l.length) :
    extract_loop_sc (fuel + 1) ⟨a, k, some l, n⟩ i =
      if ordering k (l.getD i 0) (l.getD (chosen_child k l i) 0) then
        .ok (1, ⟨a, k, some l, n⟩)
      else
        extract_loop_sc fuel ⟨a, k, some (lswap l i (chosen_child k l i)), n⟩
          (chosen_child k l i) := by
  have hn0 : 0 < n := by omega
  have hi : i < l.length := by omega
  obtain ⟨o, ho, -⟩ := chosen_child_spec k l i hk
  have hc : chosen_child k l i < l.length := by omega
  have hL : (2 * i + 1 < n) := by omega
  have hR : (2 * i + 2 < n) := by omega
  rw [extract_loop_sc]
  simp only [no_children, left_no_right, has_left_iff a k _ n i hn0, has_right_iff a k _ n i hn0,
    hL, hR, decide_True, Bool.not_true, Bool.and_false, Bool.false_and, Bool.and_self]
  rcases hk with rfl | rfl
  · simp only [if_true, smaller_child_some a _ l n i hr, bind, Res.bind,
      property_some a _ l n _ _ (Or.inl rfl) hi hc]
    by_cases hord : ordering min_heap (l.getD i 0) (l.getD (chosen_child min_heap l i) 0)
    · simp only [if_pos hord]; rfl
    · simp only [if_neg hord, swap_some a _ l n _ _ hi hc]; rfl
  · have e : ¬ max_heap = min_heap := by decide
    simp only [if_neg e, if_true, larger_child_some a _ l n i hr, bind, Res.bind,
      property_some a _ l n _ _ (Or.inr rfl) hi hc]
    by_cases hord : ordering max_heap (l.getD i 0) (l.getD (chosen_child max_heap l i) 0)
    · simp only [if_pos hord]; rfl
    · simp only [if_neg hord, swap_some a _ l n _ _ hi hc]; rfl

theorem down_two_heap (k : Int) (l : List Int) (i c o : Nat) (hinv : down_inv k l i)
    (hco : (c = 2 * i + 1 ∧ o = 2 * i + 2) ∨ (c = 2 * i + 2 ∧ o = 2 * i + 1))
    (hcmp : ordering k (l.getD c 0) (l.getD o 0))
    (h : ordering k (l.getD i 0) (l.getD c 0)) : is_heap k l := by
  intro j hj hj0
  by_cases hp : parent j = i
  · have := (parent_eq_iff i j hj0).1 hp
    rw [hp]
    by_cases e : j = c
    · rw [e]; exact h
    · have e2 : j = o := by omega
      rw [e2]; exact ordering_trans k _ _ _ h hcmp
  · exact hinv.1 j hj hj0 hp

/-- On an array with the heap property the sift-down walk changes nothing. -/
theorem extract_loop_heap_stays (a k : Int) (n : Nat) (hk : k = min_heap ∨ k = max_heap)
    (l : List Int) (hn : n = l.length) (hh : is_heap k l) :
    ∀ (fuel : Nat) (i : Nat), i < n → n ≤ fuel + i →
      extract_loop fuel ⟨a, k, some l, n⟩ i = .ok (1, ⟨a, k, some l, n⟩) := by
  intro fuel
  induction fuel with
  | zero => intro i h1 h2; omega
  | succ fuel ih =>
    intro i hi hf
    by_cases hL : 2 * i + 1 < n
    · have hordL : ordering k (l.getD i 0) (l.getD (2 * i + 1) 0) := by
        have := hh (2 * i + 1) (by omega) (by omega)
        rwa [(parent_eq_iff i (2 * i + 1) (by omega)).2 (Or.inl rfl)] at this
      by_cases hR : 2 * i + 2 < n
      · obtain ⟨o, ho, -⟩ := chosen_child_spec k l i hk
        have hpc : parent (chosen_child k l i) = i :=
          (parent_eq_iff i _ (by omega)).2 (by omega)
        have hord : ordering k (l.getD i 0) (l.getD (chosen_child k l i) 0) := by
          have := hh (chosen_child k l i) (by omega) (by omega)
          rwa [hpc] at this
        rw [extract_loop_two a k l n i fuel hk hn (by omega), if_pos hord]
        exact ih _ (by omega) (by omega)
      · rw [extract_loop_left a k l n i fuel hk hn hL hR, if_pos hordL]
    · exact extract_loop_leaf a k _ n i fuel (by omega) hL

theorem extract_loop_sc_eq (a k : Int) (n : Nat) (hk : k = min_heap ∨ k = max_heap) :
    ∀ (fuel : Nat) (l : List Int) (i : Nat), n = l.length → i < n → n ≤ fuel + i →
      down_inv k l i →
      extract_loop_sc fuel ⟨a, k, some l, n⟩ i = extract_loop fuel ⟨a, k, some l, n⟩ i := by
  intro fuel
  induction fuel with
  | zero => intro l i _ h1 h2; omega
  | succ fuel ih =>
    intro l i hn hi hf hinv
    by_cases hL : 2 * i + 1 < n
    · by_cases hR : 2 * i + 2 < n
      · obtain ⟨o, ho, hcmp⟩ := chosen_child_spec k l i hk
        have hc : chosen_child k l i < l.length := by omega
        rw [extract_loop_two a k l n i fuel hk hn (by omega),
          extract_loop_sc_two a k l n i fuel hk hn (by omega)]
        by_cases hord : ordering k (l.getD i 0) (l.getD (chosen_child k l i) 0)
        · rw [if_pos hord, if_pos hord]
          have hh := down_two_heap k l i _ o hinv ho hcmp hord
          exact (extract_loop_heap_stays a k n hk l hn hh fuel _ (by omega) (by omega)).symm
        · rw [if_neg hord, if_neg hord]
          exact ih _ _ (by rw [lswap_length]; exact hn) (by omega) (by omega)
            (down_two_swap k l i _ o hk hinv ho hc hcmp hord)
      · rw [extract_loop_left a k l n i fuel hk hn hL hR,
          extract_loop_sc_left a k l n i fuel hk hn hL hR]
    · rw [extract_loop_leaf a k _ n i fuel (by omega) hL,
        extract_loop_sc_leaf a k _ n i fuel (by omega) hL]

theorem extract_sc_entry (fuel : Nat) (k : Int) (l : List Int) (n : Nat) (val : Int)
    (hl : l.length = n) (h2 : 2 ≤ n) :
    extract_sc fuel true ⟨1, k, some l, n⟩ val =
      Res.bind (extract_loop_sc fuel ⟨1, k, some (shrink l), n - 1⟩ 0)
        (fun p => .ok (p.1, p.2, l.getD 0 0)) := by
  have h0 : ¬ n = 0 := by omega
  have h1 : ¬ n = 1 := by omega
  have hr : realloc true (some (l.set 0 (l.getD (n - 1) 0))) (n - 1) = some (shrink l) := by
    simp only [realloc, if_true, Option.getD_some, List.length_set, shrink, hl]
    have : n - 1 - n = 0 := by omega
    rw [this]; simp
  simp only [extract_sc, ne_eq, not_true_eq_false, if_false, bind, Res.bind,
    vals_get_some 1 k l n 0 (by omega), if_neg h0, if_neg h1,
    vals_get_some 1 k l n (n - 1) (by omega), vals_set_some 1 k l n 0 _ (by omega), hr]
  cases extract_loop_sc fuel ⟨1, k, some (shrink l), n - 1⟩ 0 <;> rfl

theorem extract_sc_shrink_fails (fuel : Nat) (k : Int) (l : List Int) (n : Nat) (val : Int)
    (hl : l.length = n) (h2 : 2 ≤ n) :
    extract_sc fuel false ⟨1, k, some l, n⟩ val =
      .ok (-1, ⟨1, k, some (l.set 0 (l.getD (n - 1) 0)), n⟩, l.getD 0 0) := by
  have h0 : ¬ n = 0 := by omega
  have h1 : ¬ n = 1 := by omega
  simp only [extract_sc, ne_eq, not_true_eq_false, if_false, bind, Res.bind,
    vals_get_some 1 k l n 0 (by omega), if_neg h0, if_neg h1,
    vals_get_some 1 k l n (n - 1) (by omega), vals_set_some 1 k l n 0 _ (by omega), realloc,
    Bool.false_eq_true]
  rfl

theorem heap_extract_len_zero (fuel : Nat) (ok : Bool) (h : heap) (val : Int)
    (h0 : h.len = 0) :
    ∃ r, (r = -1 ∨ r = 0) ∧ heap_extract fuel ok h val = .ok (r, h, val) := by
  unfold heap_extract
  split_ifs with c1 c2
  · exact ⟨-1, Or.inl rfl, rfl⟩
  · exact ⟨-1, Or.inl rfl, rfl⟩
  · exact ⟨0, Or.inr rfl, rfl⟩

theorem heap_extract_total (fuel : Nat) (ok : Bool) (h : heap) (val : Int) (hok : heap_ok h)
    (hf : h.len - 1 ≤ fuel) : ∃ r h3 out, heap_extract fuel ok h val = .ok (r, h3, out) := by
  by_cases h0 : h.len = 0
  · obtain ⟨r, -, e⟩ := heap_extract_len_zero fuel ok h val h0
    exact ⟨r, h, val, e⟩
  · obtain ⟨a, k, v, n⟩ := h
    obtain ⟨ha, hk, hl⟩ := hok
    simp only at ha hk hl hf h0
    subst ha
    cases v with
    | none => simp [contents] at hl; omega
    | some l =>
      simp only [contents, Option.getD_some] at hl
      by_cases h1 : n = 1
      · subst h1
        exact ⟨_, _, _, heap_extract_one fuel ok k l val hl⟩
      · have h2 : 2 ≤ n := by omega
        cases ok with
        | false => exact ⟨_, _, _, heap_extract_shrink_fails fuel k l n val hl h2⟩
        | true =>
          rw [heap_extract_entry fuel k l n val hl h2]
          have hn : n - 1 = (shrink l).length := by rw [shrink_length, hl]
          obtain ⟨l2, e, -⟩ := extract_loop_spec 1 k (n - 1) hk fuel (shrink l) 0 hn
            (by omega) (by omega)
          rw [e]
          exact ⟨_, _, _, rfl⟩

/-! ## Claims -/

/-- C1: `heap_insert` preserves the heap property.  For every initialized heap
of kind `min_heap` or `max_heap` whose array holds `len` ints and satisfies the
heap property, and every `val`: the call returns 1 when the growth succeeds,
and whenever the call returns 1 the new array has length `len + 1` and again
satisfies the heap property. -/
theorem heap_insert_preserves_heap_property (h : heap) (val : Int)
    (hok : heap_ok h) (hprop : heap_property h) :
    (∀ fuel, h.len < fuel → ∃ h2, heap_insert fuel true h val = .ok (1, h2)) ∧
    ∀ (fuel : Nat) (realloc_ok : Bool) (r : Int) (h2 : heap),
      heap_insert fuel realloc_ok h val = .ok (r, h2) → r = 1 →
        h2.len = h.len + 1 ∧ (contents h2).length = h.len + 1 ∧ heap_property h2 := by
  constructor
  · intro fuel hf
    obtain ⟨h3, e, -⟩ := heap_insert_spec fuel h val hok hf
    exact ⟨h3, e⟩
  · intro fuel ok r h2 e2 hr
    have e3 := heap_insert_mono fuel ok h val _ e2 (h.len + 1)
    obtain ⟨h3, e, hok3, -, hlen, -, -, hp⟩ :=
      heap_insert_spec (fuel + (h.len + 1)) h val hok (by omega)
    cases ok with
    | false =>
      rw [heap_insert_realloc_fails] at e2
      cases e2; cases hr
    | true =>
      rw [e] at e3
      cases e3
      exact ⟨hlen, by rw [hok3.2.2, hlen], hp hprop⟩

/-- C2: `heap_extract` preserves the heap property.  For every initialized
non-empty heap of kind `min_heap` or `max_heap` whose array satisfies the heap
property, the call returns 1 when the shrink succeeds, and whenever the call
returns 1 the remaining array has length `len - 1` and satisfies the heap
property. -/
theorem heap_extract_preserves_heap_property (h : heap) (val : Int)
    (hok : heap_ok h) (hpos : 0 < h.len) (hprop : heap_property h) :
    (∀ fuel, h.len ≤ fuel → ∃ h2 v, heap_extract fuel true h val = .ok (1, h2, v)) ∧
    ∀ (fuel : Nat) (realloc_ok : Bool) (r : Int) (h2 : heap) (v : Int),
      heap_extract fuel realloc_ok h val = .ok (r, h2, v) → r = 1 →
        h2.len = h.len - 1 ∧ (contents h2).length = h.len - 1 ∧ heap_property h2 := by
  constructor
  · intro fuel hf
    obtain ⟨h3, e, -⟩ := heap_extract_spec fuel h val hok hpos hf
    exact ⟨h3, _, e⟩
  · intro fuel ok r h2 v e2 hr
    have e3 : heap_extract fuel true h val = .ok (r, h2, v) := by
      cases ok with
      | false => exact heap_extract_realloc_fails fuel h val r h2 v e2 hr
      | true => exact e2
    have e4 := heap_extract_mono fuel true h val _ e3 h.len
    obtain ⟨h3, e, hok3, -, hlen, -, -, hp⟩ :=
      heap_extract_spec (fuel + h.len) h val hok hpos (by omega)
    rw [e] at e4
    cases e4
    exact ⟨by omega, by rw [hok3.2.2]; omega, hp hprop⟩

/-- C3: `heap_extract` delivers the extremum.  For every initialized non-empty
heap with the heap property, the call (shrink succeeding) returns 1 and writes
the pre-call root `vals[0]` to `*val`; that value is `≤` every stored element
for a `min_heap` and `≥` every stored element for a `max_heap`. -/
theorem heap_extract_delivers_extremum (fuel : Nat) (h : heap) (val : Int)
    (hok : heap_ok h) (hpos : 0 < h.len) (hprop : heap_property h) (hf : h.len ≤ fuel) :
    (∃ h2, heap_extract fuel true h val = .ok (1, h2, (contents h).getD 0 0)) ∧
    (h.heap_type = min_heap → ∀ x ∈ contents h, (contents h).getD 0 0 ≤ x) ∧
    (h.heap_type = max_heap → ∀ x ∈ contents h, (contents h).getD 0 0 ≥ x) := by
  obtain ⟨h3, e, -⟩ := heap_extract_spec fuel h val hok hpos hf
  have hroot := root_extremal h.heap_type (contents h) hok.2.1
    ((heap_property_iff h hok.2.2).1 hprop)
  have hall : ∀ x ∈ contents h, ordering h.heap_type ((contents h).getD 0 0) x := by
    intro x hx
    obtain ⟨j, hj, rfl⟩ := List.getElem_of_mem hx
    have := hroot j hj
    simpa [List.getD_eq_getElem?_getD, List.getElem?_eq_getElem hj] using this
  refine ⟨⟨h3, e⟩, ?_, ?_⟩
  · intro hk x hx
    have := hall x hx
    rw [hk] at this
    rcases this with ⟨-, h1⟩ | ⟨h1, -⟩
    · exact h1
    · cases h1
  · intro hk x hx
    have := hall x hx
    rw [hk] at this
    rcases this with ⟨h1, -⟩ | ⟨-, h1⟩
    · cases h1
    · exact h1

/-- Witness for C1: inserting 0 into the min-heap `[1, 5, 3]`. -/
theorem heap_insert_preserves_heap_property_witness :
    heap_ok ⟨1, min_heap, some [1, 5, 3], 3⟩ ∧ heap_property ⟨1, min_heap, some [1, 5, 3], 3⟩ ∧
    ((∀ fuel, 3 < fuel →
      ∃ h2, heap_insert fuel true ⟨1, min_heap, some [1, 5, 3], 3⟩ 0 = .ok (1, h2)) ∧
    ∀ (fuel : Nat) (realloc_ok : Bool) (r : Int) (h2 : heap),
      heap_insert fuel realloc_ok ⟨1, min_heap, some [1, 5, 3], 3⟩ 0 = .ok (r, h2) → r = 1 →
        h2.len = 3 + 1 ∧ (contents h2).length = 3 + 1 ∧ heap_property h2) :=
  ⟨by decide, by decide,
    heap_insert_preserves_heap_property ⟨1, min_heap, some [1, 5, 3], 3⟩ 0
      (by decide) (by decide)⟩

/-- Witness for C2: extracting from the min-heap `[1, 5, 3, 7]`. -/
theorem heap_extract_preserves_heap_property_witness :
    heap_ok ⟨1, min_heap, some [1, 5, 3, 7], 4⟩ ∧
    heap_property ⟨1, min_heap, some [1, 5, 3, 7], 4⟩ ∧
    ((∀ fuel, 4 ≤ fuel →
      ∃ h2 v, heap_extract fuel true ⟨1, min_heap, some [1, 5, 3, 7], 4⟩ 0 = .ok (1, h2, v)) ∧
    ∀ (fuel : Nat) (realloc_ok : Bool) (r : Int) (h2 : heap) (v : Int),
      heap_extract fuel realloc_ok ⟨1, min_heap, some [1, 5, 3, 7], 4⟩ 0 = .ok (r, h2, v) →
        r = 1 → h2.len = 4 - 1 ∧ (contents h2).length = 4 - 1 ∧ heap_property h2) :=
  ⟨by decide, by decide,
    heap_extract_preserves_heap_property ⟨1, min_heap, some [1, 5, 3, 7], 4⟩ 0
      (by decide) (by decide) (by decide)⟩

/-- Witness for C3: extracting from the max-heap `[9, 5, 8, 2]` delivers 9. -/
theorem heap_extract_delivers_extremum_witness :
    heap_ok ⟨1, max_heap, some [9, 5, 8, 2], 4⟩ ∧
    heap_property ⟨1, max_heap, some [9, 5, 8, 2], 4⟩ ∧
    ((∃ h2, heap_extract 4 true ⟨1, max_heap, some [9, 5, 8, 2], 4⟩ 0 =
        .ok (1, h2, (contents ⟨1, max_heap, some [9, 5, 8, 2], 4⟩).getD 0 0)) ∧
    ((1 : Int) = min_heap → ∀ x ∈ contents ⟨1, max_heap, some [9, 5, 8, 2], 4⟩,
        (contents ⟨1, max_heap, some [9, 5, 8, 2], 4⟩).getD 0 0 ≤ x) ∧
    ((1 : Int) = max_heap → ∀ x ∈ contents ⟨1, max_heap, some [9, 5, 8, 2], 4⟩,
        (contents ⟨1, max_heap, some [9, 5, 8, 2], 4⟩).getD 0 0 ≥ x)) :=
  ⟨by decide, by decide,
    heap_extract_delivers_extremum 4 ⟨1, max_heap, some [9, 5, 8, 2], 4⟩ 0
      (by decide) (by decide) (by decide) (by decide)⟩

/-- C4: round trip (heap sort).  For every list `xs` and each kind, starting
from `new_heap`, inserting the elements of `xs` in order returns 1 each time,
and `|xs|` calls of `heap_extract` then return 1 each time and output `xs`
sorted ascending for `min_heap`, descending for `max_heap`. -/
theorem heap_sort_round_trip (fuel : Nat) (xs : List Int) (k : Int) (b : heap) (val : Int)
    (hk : k = min_heap ∨ k = max_heap) (hf : xs.length ≤ fuel) :
    ∃ h0 h1 h2, new_heap (some b) k = some h0 ∧
      insert_all fuel xs h0 = .ok (List.replicate xs.length 1, h1) ∧
      extract_n fuel xs.length h1 val =
        .ok ((sorted_for k xs).map (fun v => (1, v)), h2) := by
  obtain ⟨hok0, hp0⟩ := heap_ok_new b k hk
  obtain ⟨h1, e1, hok1, hk1, hl1, hp1, hh1⟩ :=
    insert_all_spec fuel xs ( heap_initialize b k) hok0 (by simp [ heap_initialize]; exact hf)
  have hl1b : h1.len = xs.length := by rw [hl1]; simp [ heap_initialize]
  obtain ⟨vs, h2, e2, -, hp2, hs2⟩ :=
    extract_n_spec fuel xs.length h1 val hok1 (hh1 hp0) hl1b hf
  refine ⟨ heap_initialize b k, h1, h2, rfl, e1, ?_⟩
  have hk1b : h1.heap_type = k := hk1
  rw [hk1b] at hs2
  have hperm : vs.Perm xs := by
    refine hp2.trans (hp1.trans ?_)
    simp [contents, heap_initialize]
  rw [← sorted_for_eq k hk xs vs hperm hs2]
  exact e2

/-- Witness for C4: the two scenarios of `test_1`. -/
theorem heap_sort_round_trip_witness :
    (∃ h0 h1 h2, new_heap (some ⟨0, 0, none, 0⟩) min_heap = some h0 ∧
      insert_all 4 [10, 9, 8, 0] h0 = .ok ([1, 1, 1, 1], h1) ∧
      extract_n 4 4 h1 0 = .ok ([(1, 0), (1, 8), (1, 9), (1, 10)], h2)) ∧
    (∃ h0 h1 h2, new_heap (some ⟨0, 0, none, 0⟩) max_heap = some h0 ∧
      insert_all 4 [0, 8, 9, 10] h0 = .ok ([1, 1, 1, 1], h1) ∧
      extract_n 4 4 h1 0 = .ok ([(1, 10), (1, 9), (1, 8), (1, 0)], h2)) :=
  ⟨heap_sort_round_trip 4 [10, 9, 8, 0] min_heap ⟨0, 0, none, 0⟩ 0 (by decide) (by decide),
   heap_sort_round_trip 4 [0, 8, 9, 10] max_heap ⟨0, 0, none, 0⟩ 0 (by decide) (by decide)⟩

/-- C5: extraction order.  For every initialized heap of kind `min_heap` or
`max_heap` with the heap property, `len` calls of `heap_extract` (shrinks
succeeding) all return 1 and empty the heap, and the sequence of values they
output is non-decreasing for a `min_heap` and non-increasing for a `max_heap`. -/
theorem extraction_order (fuel : Nat) (h : heap) (val : Int) (hok : heap_ok h)
    (hprop : heap_property h) (hf : h.len ≤ fuel) :
    ∃ vs h2, extract_n fuel h.len h val = .ok (vs.map (fun v => (1, v)), h2) ∧
      vs.length = h.len ∧ h2.len = 0 ∧
      (h.heap_type = min_heap → List.Sorted (fun a b : Int => a ≤ b) vs) ∧
      (h.heap_type = max_heap → List.Sorted (fun a b : Int => a ≥ b) vs) := by
  obtain ⟨vs, h2, e, hl, hp, hs⟩ := extract_n_spec fuel h.len h val hok hprop rfl hf
  refine ⟨vs, h2, e, by rw [hp.length_eq, hok.2.2], hl, ?_, ?_⟩
  · intro hk; rw [hk] at hs; exact sorted_of_pairwise_min vs hs
  · intro hk; rw [hk] at hs; exact sorted_of_pairwise_max vs hs

/-- Witness for C5: the max-heap `[9, 5, 8, 2, 5]`. -/
theorem extraction_order_witness :
    heap_ok ⟨1, max_heap, some [9, 5, 8, 2, 5], 5⟩ ∧
    heap_property ⟨1, max_heap, some [9, 5, 8, 2, 5], 5⟩ ∧
    ∃ vs h2, extract_n 5 5 ⟨1, max_heap, some [9, 5, 8, 2, 5], 5⟩ 0 =
        .ok (vs.map (fun v => (1, v)), h2) ∧
      vs.length = 5 ∧ h2.len = 0 ∧
      ((1 : Int) = min_heap → List.Sorted (fun a b : Int => a ≤ b) vs) ∧
      ((1 : Int) = max_heap → List.Sorted (fun a b : Int => a ≥ b) vs) :=
  ⟨by decide, by decide,
    extraction_order 5 ⟨1, max_heap, some [9, 5, 8, 2, 5], 5⟩ 0 (by decide) (by decide)
      (by decide)⟩

/-- C6: size tracking.  For every sequence of `heap_insert` / `heap_extract`
calls on a heap returned by `new_heap` in which no prefix has more extracts
than inserts (allocation succeeding), every call returns 1 and the final `len`
is the number of inserts minus the number of extracts; moreover every call of
`heap_insert` that returns 1 raises `len` by exactly 1 and every call of
`heap_extract` that returns 1 lowers it by exactly 1. -/
theorem size_tracking (fuel : Nat) (cs : List call) (k : Int) (b : heap) (val : Int)
    (hk : k = min_heap ∨ k = max_heap)
    (hpre : ∀ n, n ≤ cs.length → extracts (cs.take n) ≤ inserts (cs.take n))
    (hf : cs.length ≤ fuel) :
    (∃ h0 h1, new_heap (some b) k = some h0 ∧
      run_calls fuel cs h0 val = .ok (List.replicate cs.length 1, h1) ∧
      h1.len = inserts cs - extracts cs) ∧
    (∀ (f : Nat) (ok : Bool) (h : heap) (x : Int) (h2 : heap),
      heap_insert f ok h x = .ok (1, h2) → h2.len = h.len + 1) ∧
    (∀ (f : Nat) (ok : Bool) (h : heap) (v : Int) (h2 : heap) (out : Int),
      heap_extract f ok h v = .ok (1, h2, out) → 0 < h.len ∧ h2.len = h.len - 1) := by
  refine ⟨?_, ?_, ?_⟩
  · obtain ⟨hok0, -⟩ := heap_ok_new b k hk
    obtain ⟨h1, e1, hl1⟩ := run_calls_spec fuel cs ( heap_initialize b k) val hok0
      (by intro n hn; have := hpre n hn; simp only [ heap_initialize]; omega)
      (by simp only [ heap_initialize]; omega)
    refine ⟨ heap_initialize b k, h1, rfl, e1, ?_⟩
    simp only [ heap_initialize] at hl1
    omega
  · intro f ok h x h2 e
    rcases heap_insert_inv f ok h x 1 h2 e with ⟨h1, -⟩ | ⟨-, -, -, -, -, hl, -⟩
    · cases h1
    · exact hl
  · intro f ok h v h2 out e
    obtain ⟨-, -, -, hr⟩ := heap_extract_inv f ok h v 1 h2 out e
    obtain ⟨-, -, hl, -⟩ := hr rfl
    omega

/-- Witness for C6: insert 5, insert 3, extract, insert 7, extract on a new
`min_heap`. -/
theorem size_tracking_witness :
    (∃ h0 h1, new_heap (some ⟨0, 0, none, 0⟩) min_heap = some h0 ∧
      run_calls 5 [.insert 5, .insert 3, .extract, .insert 7, .extract] h0 0 =
        .ok ([1, 1, 1, 1, 1], h1) ∧
      h1.len = 3 - 2) ∧
    (∀ (f : Nat) (ok : Bool) (h : heap) (x : Int) (h2 : heap),
      heap_insert f ok h x = .ok (1, h2) → h2.len = h.len + 1) ∧
    (∀ (f : Nat) (ok : Bool) (h : heap) (v : Int) (h2 : heap) (out : Int),
      heap_extract f ok h v = .ok (1, h2, out) → 0 < h.len ∧ h2.len = h.len - 1) :=
  size_tracking 5 [.insert 5, .insert 3, .extract, .insert 7, .extract] min_heap
    ⟨0, 0, none, 0⟩ 0 (by decide) (by decide) (by decide)

/-- C7 (the code at the failing input): on the heap just returned by
`new_heap`, `heap_extract` returns -1, with the heap and `*val` untouched; the
test `heap->vals == NULL` precedes the test `heap->len == 0`. -/
theorem heap_extract_fresh_returns_error (fuel : Nat) (ok : Bool) (b : heap) (k : Int)
    (val : Int) :
    ∃ h0, new_heap (some b) k = some h0 ∧ heap_extract fuel ok h0 val = .ok (-1, h0, val) :=
  ⟨ heap_initialize b k, rfl, rfl⟩

/-- C8: destroy is rejected exactly when the heap is non-empty.  On every heap
reachable from `new_heap` by calls of `heap_insert` and `heap_extract` that
returned 1, `delete_heap` returns -1 and keeps the heap when `len > 0`, and
returns 0 (the heap being released) when `len = 0`. -/
theorem delete_heap_rejects_nonempty (h : heap) (hr : reachable h) :
    (0 < h.len → delete_heap h = (-1, some h)) ∧ (h.len = 0 → delete_heap h = (0, none)) := by
  obtain ⟨hi, hv⟩ := reachable_inv h hr
  constructor
  · intro hpos
    have hne : h.vals ≠ none := by intro e; have := hv.1 e; omega
    simp only [delete_heap, hi, ne_eq, not_true_eq_false, if_false, hne, not_false_eq_true,
      if_true]
  · intro h0
    have he : h.vals = none := hv.2 h0
    simp only [delete_heap, hi, ne_eq, not_true_eq_false, if_false, he]

/-- Witness for C8: the heap after inserting 4 into a new `max_heap`. -/
theorem delete_heap_rejects_nonempty_witness :
    reachable ⟨1, max_heap, some [4], 1⟩ ∧
    (0 < 1 → delete_heap ⟨1, max_heap, some [4], 1⟩ = (-1, some ⟨1, max_heap, some [4], 1⟩)) ∧
    ((1 : Nat) = 0 → delete_heap ⟨1, max_heap, some [4], 1⟩ = (0, none)) :=
  ⟨reachable.insert 1 true ⟨1, max_heap, none, 0⟩ 4 _
      (reachable.new ⟨0, 0, none, 0⟩ max_heap _ rfl) rfl,
    delete_heap_rejects_nonempty ⟨1, max_heap, some [4], 1⟩
      (reachable.insert 1 true ⟨1, max_heap, none, 0⟩ 4 _
        (reachable.new ⟨0, 0, none, 0⟩ max_heap _ rfl) rfl)⟩

/-- C9: single-element round trip.  For each kind `k` and every `v`, on the
heap returned by `new_heap k` the call `heap_insert v` returns 1, the following
`heap_extract` returns 1 with output `v`, and the heap is then exactly the
freshly created one (no storage, `len = 0`, kind `k`, initialized), on which
`delete_heap` returns 0. -/
theorem single_element_round_trip (fuel : Nat) (ok : Bool) (k : Int) (v : Int) (b : heap)
    (val : Int) (hf : 0 < fuel) :
    ∃ h0 h1, new_heap (some b) k = some h0 ∧ h0 = ⟨1, k, none, 0⟩ ∧
      heap_insert fuel true h0 v = .ok (1, h1) ∧
      heap_extract fuel ok h1 val = .ok (1, h0, v) ∧
      delete_heap h0 = (0, none) := by
  obtain ⟨m, rfl⟩ : ∃ m, fuel = m + 1 := ⟨fuel - 1, by omega⟩
  exact ⟨⟨1, k, none, 0⟩, ⟨1, k, some [v], 1⟩, rfl, rfl, rfl, rfl, rfl⟩

/-- Witness for C9: `v = 0` for both kinds, as in `test_0`. -/
theorem single_element_round_trip_witness :
    (0 < 1) ∧
    (∃ h0 h1, new_heap (some ⟨0, 0, none, 0⟩) min_heap = some h0 ∧ h0 = ⟨1, min_heap, none, 0⟩ ∧
      heap_insert 1 true h0 0 = .ok (1, h1) ∧
      heap_extract 1 true h1 0 = .ok (1, h0, 0) ∧
      delete_heap h0 = (0, none)) ∧
    (∃ h0 h1, new_heap (some ⟨0, 0, none, 0⟩) max_heap = some h0 ∧ h0 = ⟨1, max_heap, none, 0⟩ ∧
      heap_insert 1 true h0 0 = .ok (1, h1) ∧
      heap_extract 1 true h1 0 = .ok (1, h0, 0) ∧
      delete_heap h0 = (0, none)) :=
  ⟨by decide,
    single_element_round_trip 1 true min_heap 0 ⟨0, 0, none, 0⟩ 0 (by decide),
    single_element_round_trip 1 true max_heap 0 ⟨0, 0, none, 0⟩ 0 (by decide)⟩

/-- C10: insert is atomic on failure.  For every heap and every `val`,
whenever `heap_insert` returns -1 the heap after the call is the heap before
it: same `len`, same stored values, same kind. -/
theorem heap_insert_atomic_on_failure (fuel : Nat) (ok : Bool) (h : heap) (val : Int)
    (h2 : heap) (e : heap_insert fuel ok h val = .ok (-1, h2)) : h2 = h := by
  rcases heap_insert_inv fuel ok h val (-1) h2 e with ⟨-, h1⟩ | ⟨h1, -⟩
  · exact h1
  · cases h1

/-- Witness for C10: the growth fails on the min-heap `[1, 5, 3]`. -/
theorem heap_insert_atomic_on_failure_witness :
    heap_insert 4 false ⟨1, min_heap, some [1, 5, 3], 3⟩ 0 =
        .ok (-1, ⟨1, min_heap, some [1, 5, 3], 3⟩) ∧
    (⟨1, min_heap, some [1, 5, 3], 3⟩ : heap) = ⟨1, min_heap, some [1, 5, 3], 3⟩ :=
  ⟨by decide, heap_insert_atomic_on_failure 4 false ⟨1, min_heap, some [1, 5, 3], 3⟩ 0
    ⟨1, min_heap, some [1, 5, 3], 3⟩ (by decide)⟩

/-- C11: extract shrink-failure asymmetry.  For every initialized heap whose
array holds `len >= 2` ints, when the shrink fails `heap_extract` returns -1,
`*val` holds the pre-call root `vals[0]`, and the root has been removed from
the array by the overwrite of slot 0 with the last element: the array after
the call is the array before with slot 0 replaced (`len` is not decremented),
so it holds one occurrence of the root less and one of the last element
more. -/
theorem extract_shrink_failure (fuel : Nat) (h : heap) (val : Int) (hi : h.initialized = 1)
    (hl : (contents h).length = h.len) (h2 : 2 ≤ h.len) :
    ∃ h3, heap_extract fuel false h val = .ok (-1, h3, (contents h).getD 0 0) ∧
      contents h3 = (contents h).set 0 ((contents h).getD (h.len - 1) 0) ∧
      h3.len = h.len ∧ h3.heap_type = h.heap_type ∧
      ((contents h).getD 0 0 :: contents h3).Perm
        ((contents h).getD (h.len - 1) 0 :: contents h) := by
  obtain ⟨a, k, v, n⟩ := h
  simp only at hi hl h2
  subst hi
  cases v with
  | none => simp [contents] at hl; omega
  | some l =>
    simp only [contents, Option.getD_some] at hl ⊢
    refine ⟨_, heap_extract_shrink_fails fuel k l n val hl h2, rfl, rfl, rfl, ?_⟩
    simp only [Option.getD_some]
    cases l with
    | nil => simp at hl; omega
    | cons x t =>
      simp only [List.set_cons_zero, List.getD_cons_zero]
      exact List.Perm.swap _ _ _

/-- Witness for C11: the shrink fails on the min-heap `[1, 5, 3]`. -/
theorem extract_shrink_failure_witness :
    ∃ h3, heap_extract 3 false ⟨1, min_heap, some [1, 5, 3], 3⟩ 0 =
        .ok (-1, h3, (contents ⟨1, min_heap, some [1, 5, 3], 3⟩).getD 0 0) ∧
      contents h3 = (contents ⟨1, min_heap, some [1, 5, 3], 3⟩).set 0
        ((contents ⟨1, min_heap, some [1, 5, 3], 3⟩).getD (3 - 1) 0) ∧
      h3.len = 3 ∧ h3.heap_type = min_heap ∧
      ((contents ⟨1, min_heap, some [1, 5, 3], 3⟩).getD 0 0 :: contents h3).Perm
        ((contents ⟨1, min_heap, some [1, 5, 3], 3⟩).getD (3 - 1) 0 ::
          contents ⟨1, min_heap, some [1, 5, 3], 3⟩) :=
  extract_shrink_failure 3 ⟨1, min_heap, some [1, 5, 3], 3⟩ 0 (by decide) (by decide)
    (by decide)

/-- C12 (the code on a bad heap type): for every initialized heap whose
`heap_type` is neither `min_heap` nor `max_heap` and whose array holds `len`
ints, `heap_insert` (growth succeeding) returns 1, not -1, and has appended
`val`: `property` returns -1, which ends the `for` loop whose condition is
`property(...) == 0`, so the `ret == -1` test in the loop body is never
reached. -/
theorem heap_insert_bad_type_returns_1 (fuel : Nat) (h : heap) (val : Int)
    (hi : h.initialized = 1) (hk : h.heap_type ≠ min_heap ∧ h.heap_type ≠ max_heap)
    (hl : (contents h).length = h.len) (hf : 0 < fuel) :
    heap_insert fuel true h val =
      .ok (1, ⟨1, h.heap_type, some (contents h ++ [val]), h.len + 1⟩) := by
  obtain ⟨a, k, v, n⟩ := h
  simp only at hi hk hl
  subst hi
  obtain ⟨m, rfl⟩ : ∃ m, fuel = m + 1 := ⟨fuel - 1, by omega⟩
  rw [heap_insert_entry (m + 1) k v n val hl]
  exact insert_loop_bad_type m _ n hk

/-- Witness for C12: `heap_type = 2`, array `[5]`, `val = 3`. -/
theorem heap_insert_bad_type_returns_1_witness :
    heap_insert 1 true ⟨1, 2, some [5], 1⟩ 3 = .ok (1, ⟨1, 2, some [5, 3], 2⟩) :=
  heap_insert_bad_type_returns_1 1 ⟨1, 2, some [5], 1⟩ 3 (by decide) (by decide) (by decide)
    (by decide)

/-- C13: the kind is fixed at creation.  `new_heap k` yields a heap of kind
`k`, and every call of `heap_insert` or `heap_extract` on any heap, whatever
its return code, leaves `heap_type` and `initialized` as they were. -/
theorem kind_fixed_at_creation :
    (∀ (b : heap) (k : Int), ∃ h, new_heap (some b) k = some h ∧ h.heap_type = k) ∧
    (∀ (fuel : Nat) (ok : Bool) (h : heap) (val r : Int) (h2 : heap),
      heap_insert fuel ok h val = .ok (r, h2) →
        h2.heap_type = h.heap_type ∧ h2.initialized = h.initialized) ∧
    (∀ (fuel : Nat) (ok : Bool) (h : heap) (val r : Int) (h2 : heap) (out : Int),
      heap_extract fuel ok h val = .ok (r, h2, out) →
        h2.heap_type = h.heap_type ∧ h2.initialized = h.initialized) := by
  refine ⟨fun b k => ⟨ heap_initialize b k, rfl, rfl⟩, ?_, ?_⟩
  · intro fuel ok h val r h2 e
    rcases heap_insert_inv fuel ok h val r h2 e with ⟨-, h1⟩ | ⟨-, -, -, h1, h3, -⟩
    · subst h1; exact ⟨rfl, rfl⟩
    · exact ⟨h3, h1⟩
  · intro fuel ok h val r h2 out e
    obtain ⟨h1, h3, -⟩ := heap_extract_inv fuel ok h val r h2 out e
    exact ⟨h3, h1⟩

/-- C14 (the code of `heap_type_to_str`): when the caller's slot `*str`
holds NULL before the call the function returns -1 and leaves the slot
untouched, for every kind; when the slot holds anything else it returns 1 and
sets the slot to `"min_heap"` for `min_heap` and to `"max_heap"` for
`max_heap`. -/
theorem heap_type_to_str_null_slot :
    (∀ k : Int, heap_type_to_str k none = (-1, none)) ∧
    (∀ s : String, heap_type_to_str min_heap (some s) = (1, some "min_heap")) ∧
    (∀ s : String, heap_type_to_str max_heap (some s) = (1, some "max_heap")) :=
  ⟨fun _ => rfl, fun _ => rfl, fun _ => rfl⟩

/-- C15: each operation changes the stored multiset by exactly one element.
For every initialized heap of kind `min_heap` or `max_heap` whose array holds
`len` ints (heap property not required), a call of `heap_insert` that returns 1
leaves the multiset of stored values equal to the previous one plus `val`, and
a call of `heap_extract` that returns 1 leaves the previous multiset minus the
value written to `*val`; the sift-up and sift-down loops only permute the
array. -/
theorem multiset_changes_by_one (h : heap) (hok : heap_ok h) :
    (∀ (fuel : Nat) (ok : Bool) (val : Int) (h2 : heap),
      heap_insert fuel ok h val = .ok (1, h2) →
        Multiset.ofList (contents h2) = Multiset.cons val (Multiset.ofList (contents h))) ∧
    (∀ (fuel : Nat) (ok : Bool) (val : Int) (h2 : heap) (out : Int),
      heap_extract fuel ok h val = .ok (1, h2, out) →
        Multiset.ofList (contents h) = Multiset.cons out (Multiset.ofList (contents h2))) ∧
    (∀ (fuel : Nat) (l : List Int) (i : Nat) (r : Int) (h2 : heap), i < l.length →
      insert_loop fuel ⟨1, h.heap_type, some l, l.length⟩ i = .ok (r, h2) →
        (contents h2).Perm l) ∧
    (∀ (fuel : Nat) (l : List Int) (i : Nat) (r : Int) (h2 : heap), i < l.length →
      extract_loop fuel ⟨1, h.heap_type, some l, l.length⟩ i = .ok (r, h2) →
        (contents h2).Perm l) := by
  refine ⟨?_, ?_, ?_, ?_⟩
  · intro fuel ok val h2 e
    have hok' : ok = true := by
      rcases heap_insert_inv fuel ok h val 1 h2 e with ⟨h1, -⟩ | ⟨-, h1, -⟩
      · cases h1
      · exact h1
    subst hok'
    have e2 := heap_insert_mono fuel true h val _ e (h.len + 1)
    obtain ⟨h3, e3, -, -, -, -, hp, -⟩ :=
      heap_insert_spec (fuel + (h.len + 1)) h val hok (by omega)
    rw [e3] at e2
    cases e2
    rw [Multiset.cons_coe]
    exact Multiset.coe_eq_coe.mpr hp
  · intro fuel ok val h2 out e
    have e1 : heap_extract fuel true h val = .ok (1, h2, out) := by
      cases ok with
      | false => exact heap_extract_realloc_fails fuel h val 1 h2 out e rfl
      | true => exact e
    obtain ⟨-, -, -, hr⟩ := heap_extract_inv fuel true h val 1 h2 out e1
    obtain ⟨-, -, hlen, -⟩ := hr rfl
    have e2 := heap_extract_mono fuel true h val _ e1 h.len
    obtain ⟨h3, e3, -, -, -, -, hp, -⟩ :=
      heap_extract_spec (fuel + h.len) h val hok (by omega) (by omega)
    rw [e3] at e2
    cases e2
    rw [Multiset.cons_coe]
    exact Multiset.coe_eq_coe.mpr hp
  · intro fuel l i r h2 hi e
    exact (insert_loop_perm 1 h.heap_type l.length hok.2.1 fuel l i r h2 hi e).2
  · intro fuel l i r h2 hi e
    exact (extract_loop_perm 1 h.heap_type l.length hok.2.1 fuel l i r h2 rfl hi e).2

/-- Witness for C15: the array `[4, 1, 3]` of a `min_heap`, which does not
satisfy the heap property. -/
theorem multiset_changes_by_one_witness :
    heap_ok ⟨1, min_heap, some [4, 1, 3], 3⟩ ∧
    ¬ heap_property ⟨1, min_heap, some [4, 1, 3], 3⟩ ∧
    heap_insert 4 true ⟨1, min_heap, some [4, 1, 3], 3⟩ 0 =
      .ok (1, ⟨1, min_heap, some [0, 4, 3, 1], 4⟩) ∧
    Multiset.ofList (contents ⟨1, min_heap, some [0, 4, 3, 1], 4⟩) =
      Multiset.cons 0 (Multiset.ofList (contents ⟨1, min_heap, some [4, 1, 3], 3⟩)) ∧
    heap_extract 4 true ⟨1, min_heap, some [4, 1, 3], 3⟩ 0 =
      .ok (1, ⟨1, min_heap, some [1, 3], 2⟩, 4) ∧
    Multiset.ofList (contents ⟨1, min_heap, some [4, 1, 3], 3⟩) =
      Multiset.cons 4 (Multiset.ofList (contents ⟨1, min_heap, some [1, 3], 2⟩)) :=
  ⟨by decide, by decide, by decide,
    (multiset_changes_by_one ⟨1, min_heap, some [4, 1, 3], 3⟩ (by decide)).1 4 true 0 _
      (by decide),
    by decide,
    (multiset_changes_by_one ⟨1, min_heap, some [4, 1, 3], 3⟩ (by decide)).2.1 4 true 0 _ _
      (by decide)⟩

/-- C19: representation invariant.  `vals == NULL` if and only if `len == 0`
holds for the heap returned by `new_heap`, and holds after every call of
`heap_insert` and of `heap_extract` that returns 1; hence on every reachable
heap the `vals`-based tests agree with `len == 0`: `delete_heap` returns 0
exactly when `len == 0`, `heap_extract` leaves through its `vals == NULL` guard
when `len == 0`, and its later `len == 0` test never fires. -/
theorem representation_invariant :
    (∀ (b : heap) (k : Int) (h : heap), new_heap (some b) k = some h →
      (h.vals = none ↔ h.len = 0)) ∧
    (∀ (fuel : Nat) (ok : Bool) (h : heap) (val : Int) (h2 : heap),
      heap_insert fuel ok h val = .ok (1, h2) → (h2.vals = none ↔ h2.len = 0)) ∧
    (∀ (fuel : Nat) (ok : Bool) (h : heap) (val : Int) (h2 : heap) (out : Int),
      heap_extract fuel ok h val = .ok (1, h2, out) → (h2.vals = none ↔ h2.len = 0)) ∧
    (∀ h : heap, reachable h →
      (h.vals = none ↔ h.len = 0) ∧
      ((delete_heap h).1 = 0 ↔ h.len = 0) ∧
      (h.len = 0 → ∀ (fuel : Nat) (ok : Bool) (val : Int),
        heap_extract fuel ok h val = .ok (-1, h, val)) ∧
      (∀ (fuel : Nat) (ok : Bool) (val r : Int) (h2 : heap) (out : Int),
        heap_extract fuel ok h val = .ok (r, h2, out) → r ≠ 0)) := by
  refine ⟨?_, ?_, ?_, ?_⟩
  · intro b k h e
    simp only [new_heap, Option.some.injEq] at e
    subst e
    simp [ heap_initialize]
  · intro fuel ok h val h2 e
    rcases heap_insert_inv fuel ok h val 1 h2 e with ⟨h1, -⟩ | ⟨-, -, -, -, -, hl, hv⟩
    · cases h1
    · constructor
      · intro hn; exact absurd hn hv
      · intro hn; omega
  · intro fuel ok h val h2 out e
    obtain ⟨-, -, -, hr⟩ := heap_extract_inv fuel ok h val 1 h2 out e
    exact (hr rfl).2.2.2
  · intro h hr
    obtain ⟨hi, hv⟩ := reachable_inv h hr
    refine ⟨hv, ?_, ?_, ?_⟩
    · by_cases he : h.vals = none
      · simp only [delete_heap, hi, ne_eq, not_true_eq_false, if_false, he]
        simp only [hv.1 he]
      · have : h.len ≠ 0 := fun e => he (hv.2 e)
        simp only [delete_heap, hi, ne_eq, not_true_eq_false, if_false, he, not_false_eq_true,
          if_true]
        constructor
        · intro e; cases e
        · intro e; exact absurd e this
    · intro h0 fuel ok val
      simp only [heap_extract, hi, ne_eq, not_true_eq_false, if_false, hv.2 h0, if_true]
      rfl
    · intro fuel ok val r h2 out e
      exact heap_extract_never_empty_result h hv fuel ok val r h2 out e

/-- C16: short-circuiting sift-down does not change the outcome.  For every
initialized heap of kind `min_heap` or `max_heap` with `len >= 2` that
satisfies the heap property, `heap_extract` and `extract_sc` (which stops at a
node with two children as soon as no swap is needed) produce the same result:
same return code, same `*val`, same array and `len`; and that result exists. -/
theorem short_circuit_same_outcome (fuel : Nat) (ok : Bool) (h : heap) (val : Int)
    (hok : heap_ok h) (h2 : 2 ≤ h.len) (hprop : heap_property h) (hf : h.len ≤ fuel) :
    extract_sc fuel ok h val = heap_extract fuel ok h val ∧
    ∃ r h3 out, heap_extract fuel ok h val = .ok (r, h3, out) := by
  have hp := (heap_property_iff h hok.2.2).1 hprop
  obtain ⟨a, k, v, n⟩ := h
  obtain ⟨ha, hk, hl⟩ := hok
  simp only at ha hk hl hf h2 hp
  subst ha
  cases v with
  | none => simp [contents] at hl; omega
  | some l =>
    simp only [contents, Option.getD_some] at hl hp
    cases ok with
    | false =>
      rw [extract_sc_shrink_fails fuel k l n val hl h2,
        heap_extract_shrink_fails fuel k l n val hl h2]
      exact ⟨rfl, _, _, _, rfl⟩
    | true =>
      rw [extract_sc_entry fuel k l n val hl h2, heap_extract_entry fuel k l n val hl h2]
      have hn : n - 1 = (shrink l).length := by rw [shrink_length, hl]
      rw [extract_loop_sc_eq 1 k (n - 1) hk fuel (shrink l) 0 hn (by omega) (by omega)
        (down_inv_shrink k l hp)]
      obtain ⟨l2, e, -⟩ := extract_loop_spec 1 k (n - 1) hk fuel (shrink l) 0 hn (by omega)
        (by omega)
      rw [e]
      exact ⟨rfl, _, _, _, rfl⟩

/-- Witness for C16: the min-heap `[1, 2, 3, 4, 5, 6, 7]`, where after the
first swap no further swap is needed. -/
theorem short_circuit_same_outcome_witness :
    extract_sc 7 true ⟨1, min_heap, some [1, 2, 3, 4, 5, 6, 7], 7⟩ 0 =
      heap_extract 7 true ⟨1, min_heap, some [1, 2, 3, 4, 5, 6, 7], 7⟩ 0 ∧
    ∃ r h3 out, heap_extract 7 true ⟨1, min_heap, some [1, 2, 3, 4, 5, 6, 7], 7⟩ 0 =
      .ok (r, h3, out) :=
  short_circuit_same_outcome 7 true ⟨1, min_heap, some [1, 2, 3, 4, 5, 6, 7], 7⟩ 0
    (by decide) (by decide) (by decide) (by decide)

/-- C17: the loops terminate.  For every initialized heap of kind `min_heap`
or `max_heap`: with `len >= 2`, `heap_extract` returns once the sift-down loop
may evaluate its head `len - 1` times; every iteration of that loop at an
index `i` below the length either ends the loop or continues at the child
`2i+1` or `2i+2`, which is larger than `i` and below the length, on an array
of the same length.  Likewise `heap_insert` returns once the sift-up loop may
evaluate its head `len + 1` times; every iteration at `i` either ends the loop
(`i = 0`, or the parent is ordered) or continues at `parent i < i`. -/
theorem loops_terminate (h : heap) (hok : heap_ok h) :
    (2 ≤ h.len → ∀ (fuel : Nat) (ok : Bool) (val : Int), h.len - 1 ≤ fuel →
      ∃ r h3 out, heap_extract fuel ok h val = .ok (r, h3, out)) ∧
    (∀ (l : List Int) (i : Nat), i < l.length →
      (∃ l2, ∀ fuel, extract_loop (fuel + 1) ⟨1, h.heap_type, some l, l.length⟩ i =
          .ok (1, ⟨1, h.heap_type, some l2, l.length⟩)) ∨
      (∃ c l2, (c = left_child i ∨ c = right_child i) ∧ i < c ∧ c < l.length ∧
        l2.length = l.length ∧
        ∀ fuel, extract_loop (fuel + 1) ⟨1, h.heap_type, some l, l.length⟩ i =
          extract_loop fuel ⟨1, h.heap_type, some l2, l.length⟩ c)) ∧
    (∀ (fuel : Nat) (val : Int), h.len < fuel →
      ∃ r h3, heap_insert fuel true h val = .ok (r, h3)) ∧
    (∀ (l : List Int) (i : Nat), i < l.length →
      ((i = 0 ∨ ordering h.heap_type (l.getD (parent i) 0) (l.getD i 0)) ∧
        ∀ fuel, insert_loop (fuel + 1) ⟨1, h.heap_type, some l, l.length⟩ i =
          .ok (1, ⟨1, h.heap_type, some l, l.length⟩)) ∨
      (i ≠ 0 ∧ parent i < i ∧ ∃ l2, l2.length = l.length ∧
        ∀ fuel, insert_loop (fuel + 1) ⟨1, h.heap_type, some l, l.length⟩ i =
          insert_loop fuel ⟨1, h.heap_type, some l2, l.length⟩ (parent i))) := by
  have hk := hok.2.1
  refine ⟨?_, ?_, ?_, ?_⟩
  · intro _ fuel ok val hf
    exact heap_extract_total fuel ok h val hok hf
  · intro l i hi
    by_cases hL : 2 * i + 1 < l.length
    · by_cases hR : 2 * i + 2 < l.length
      · obtain ⟨o, ho, -⟩ := chosen_child_spec h.heap_type l i hk
        by_cases hord : ordering h.heap_type (l.getD i 0)
            (l.getD (chosen_child h.heap_type l i) 0)
        · refine Or.inr ⟨chosen_child h.heap_type l i, l, ?_, by omega, by omega, rfl, ?_⟩
          · simp only [left_child, right_child]; omega
          · intro fuel
            rw [extract_loop_two 1 h.heap_type l l.length i fuel hk rfl hR, if_pos hord]
        · refine Or.inr ⟨chosen_child h.heap_type l i, lswap l i (chosen_child h.heap_type l i),
            ?_, by omega, by omega, lswap_length _ _ _, ?_⟩
          · simp only [left_child, right_child]; omega
          · intro fuel
            rw [extract_loop_two 1 h.heap_type l l.length i fuel hk rfl hR, if_neg hord]
      · by_cases hord : ordering h.heap_type (l.getD i 0) (l.getD (2 * i + 1) 0)
        · refine Or.inl ⟨l, fun fuel => ?_⟩
          rw [extract_loop_left 1 h.heap_type l l.length i fuel hk rfl hL hR, if_pos hord]
        · refine Or.inl ⟨lswap l i (2 * i + 1), fun fuel => ?_⟩
          rw [extract_loop_left 1 h.heap_type l l.length i fuel hk rfl hL hR, if_neg hord]
    · exact Or.inl ⟨l, fun fuel =>
        extract_loop_leaf 1 h.heap_type _ l.length i fuel (by omega) hL⟩
  · intro fuel val hf
    obtain ⟨h3, e, -⟩ := heap_insert_spec fuel h val hok hf
    exact ⟨1, h3, e⟩
  · intro l i hi
    by_cases hi0 : i = 0
    · subst hi0
      exact Or.inl ⟨Or.inl rfl, fun fuel => insert_loop_zero fuel _⟩
    · by_cases hord : ordering h.heap_type (l.getD (parent i) 0) (l.getD i 0)
      · refine Or.inl ⟨Or.inr hord, fun fuel => ?_⟩
        rw [insert_loop_step 1 h.heap_type l l.length i fuel hk hi hi0, if_pos hord]
      · refine Or.inr ⟨hi0, parent_lt i hi0, lswap l (parent i) i, lswap_length _ _ _,
          fun fuel => ?_⟩
        rw [insert_loop_step 1 h.heap_type l l.length i fuel hk hi hi0, if_neg hord]

/-- Witness for C17: on the max-heap `[9, 5, 8, 2]`, `heap_extract` returns
with fuel 3 and `heap_insert` with fuel 5. -/
theorem loops_terminate_witness :
    heap_ok ⟨1, max_heap, some [9, 5, 8, 2], 4⟩ ∧
    (∃ r h3 out, heap_extract 3 true ⟨1, max_heap, some [9, 5, 8, 2], 4⟩ 0 =
      .ok (r, h3, out)) ∧
    (∃ r h3, heap_insert 5 true ⟨1, max_heap, some [9, 5, 8, 2], 4⟩ 7 = .ok (r, h3)) :=
  ⟨by decide,
    (loops_terminate ⟨1, max_heap, some [9, 5, 8, 2], 4⟩ (by decide)).1 (by decide) 3 true 0
      (by decide),
    (loops_terminate ⟨1, max_heap, some [9, 5, 8, 2], 4⟩ (by decide)).2.2.1 5 7 (by decide)⟩

/-- C18: all array accesses are in bounds.  For every initialized heap of kind
`min_heap` or `max_heap` whose array holds exactly `len` ints, no call of
`heap_insert` or `heap_extract` accesses `vals` outside its block, whatever the
fuel and the allocator's answer.  The sift-up loop runs on a block of exactly
`len + 1` ints (the new `len`), the sift-down loop on a block of exactly
`len - 1` ints (the new `len`), which is positive, so that `has_left` and
`has_right` are never evaluated with `len == 0`: with `len <= 1` the sift-down
loop is not entered at all. -/
theorem accesses_in_bounds (h : heap) (hok : heap_ok h) :
    (∀ (fuel : Nat) (ok : Bool) (val : Int), heap_insert fuel ok h val ≠ .out_of_bounds) ∧
    (∀ (fuel : Nat) (ok : Bool) (val : Int), heap_extract fuel ok h val ≠ .out_of_bounds) ∧
    (∀ (fuel : Nat) (val : Int),
      heap_insert fuel true h val =
        insert_loop fuel ⟨1, h.heap_type, some (contents h ++ [val]), h.len + 1⟩ h.len ∧
      (contents h ++ [val]).length = h.len + 1) ∧
    (2 ≤ h.len → ∀ (fuel : Nat) (val : Int),
      heap_extract fuel true h val =
        Res.bind (extract_loop fuel ⟨1, h.heap_type, some (shrink (contents h)), h.len - 1⟩ 0)
          (fun p => .ok (p.1, p.2, (contents h).getD 0 0)) ∧
      (shrink (contents h)).length = h.len - 1 ∧ 0 < h.len - 1) ∧
    (h.len ≤ 1 → ∀ (fuel : Nat) (ok : Bool) (val : Int),
      heap_extract fuel ok h val = heap_extract 0 ok h val ∧
      ∃ r h3 out, heap_extract 0 ok h val = .ok (r, h3, out)) ∧
    (∀ (fuel : Nat) (h1 : heap) (i : Nat) (r : Int) (h2 : heap),
      extract_loop fuel h1 i = .ok (r, h2) →
        h2.len = h1.len ∧ (contents h2).length = (contents h1).length) ∧
    (∀ (fuel : Nat) (h1 : heap) (i : Nat) (r : Int) (h2 : heap),
      insert_loop fuel h1 i = .ok (r, h2) →
        h2.len = h1.len ∧ (contents h2).length = (contents h1).length) := by
  have hok0 := hok
  obtain ⟨a, k, v, n⟩ := h
  obtain ⟨ha, hk, hl⟩ := hok
  simp only at ha hk hl
  subst ha
  simp only [contents] at hl
  have hins : ∀ (fuel : Nat) (val : Int),
      heap_insert fuel true ⟨1, k, v, n⟩ val =
        insert_loop fuel ⟨1, k, some (v.getD [] ++ [val]), n + 1⟩ n :=
    fun fuel val => heap_insert_entry fuel k v n val hl
  refine ⟨?_, ?_, ?_, ?_, ?_, ?_, ?_⟩
  · intro fuel ok val
    cases ok with
    | false => rw [heap_insert_realloc_fails]; intro e; cases e
    | true =>
      rw [hins]
      exact insert_loop_no_oob 1 k (n + 1) hk fuel _ n (by simp; omega)
  · intro fuel ok val
    by_cases h0 : n = 0
    · obtain ⟨r, -, e⟩ := heap_extract_len_zero fuel ok ⟨1, k, v, n⟩ val h0
      rw [e]; intro e2; cases e2
    · cases v with
      | none => simp at hl; omega
      | some l =>
        simp only [Option.getD_some] at hl
        by_cases h1 : n = 1
        · subst h1
          rw [heap_extract_one fuel ok k l val hl]; intro e; cases e
        · have h2 : 2 ≤ n := by omega
          cases ok with
          | false => rw [heap_extract_shrink_fails fuel k l n val hl h2]; intro e; cases e
          | true =>
            rw [heap_extract_entry fuel k l n val hl h2]
            have hn : n - 1 = (shrink l).length := by rw [shrink_length, hl]
            have := extract_loop_no_oob 1 k (n - 1) hk fuel (shrink l) 0 hn (by omega)
            cases hres : extract_loop fuel ⟨1, k, some (shrink l), n - 1⟩ 0 with
            | ok p => intro e; cases e
            | out_of_fuel => intro e; cases e
            | out_of_bounds => exact absurd hres this
  · intro fuel val
    exact ⟨hins fuel val, by simp [contents, hl]⟩
  · intro h2 fuel val
    have h2 : 2 ≤ n := h2
    cases v with
    | none => simp at hl; omega
    | some l =>
      simp only [Option.getD_some] at hl
      simp only [contents, Option.getD_some]
      exact ⟨heap_extract_entry fuel k l n val hl h2, by rw [shrink_length, hl], by omega⟩
  · intro h1 fuel ok val
    have h1 : n ≤ 1 := h1
    by_cases h0 : n = 0
    · obtain ⟨r, -, e⟩ := heap_extract_len_zero fuel ok ⟨1, k, v, n⟩ val h0
      obtain ⟨r2, -, e2⟩ := heap_extract_len_zero 0 ok ⟨1, k, v, n⟩ val h0
      have h3 := heap_extract_mono 0 ok _ val _ e2 fuel
      rw [Nat.zero_add] at h3
      exact ⟨by rw [h3, e2], _, _, _, e2⟩
    · cases v with
      | none => simp at hl; omega
      | some l =>
        simp only [Option.getD_some] at hl
        have h1' : n = 1 := by omega
        subst h1'
        rw [heap_extract_one fuel ok k l val hl, heap_extract_one 0 ok k l val hl]
        exact ⟨rfl, _, _, _, rfl⟩
  · intro fuel h1 i r h2 e
    obtain ⟨-, -, -, f3, -, f5⟩ := extract_loop_frame fuel h1 i r h2 e
    exact ⟨f3, f5⟩
  · intro fuel h1 i r h2 e
    obtain ⟨-, -, -, f3, -, f5⟩ := insert_loop_frame fuel h1 i r h2 e
    exact ⟨f3, f5⟩

/-- Witness for C18: the min-heap `[1, 5, 3]`. -/
theorem accesses_in_bounds_witness :
    heap_ok ⟨1, min_heap, some [1, 5, 3], 3⟩ ∧
    heap_insert 1 true ⟨1, min_heap, some [1, 5, 3], 3⟩ 0 ≠ .out_of_bounds ∧
    heap_extract 1 true ⟨1, min_heap, some [1, 5, 3], 3⟩ 0 ≠ .out_of_bounds :=
  ⟨by decide,
    (accesses_in_bounds ⟨1, min_heap, some [1, 5, 3], 3⟩ (by decide)).1 1 true 0,
    (accesses_in_bounds ⟨1, min_heap, some [1, 5, 3], 3⟩ (by decide)).2.1 1 true 0⟩

/-- C20: tie-break on equal children.  At a node `i` with two children,
`smaller_child` and `larger_child` both return the right child `2i+2` when the
two children hold equal values; when the values differ `smaller_child` returns
the strictly smaller and `larger_child` the strictly larger child.  The
two-children branch of the sift-down loop compares the node with that child,
swaps with it when the ordering is violated, and continues the walk from it. -/
theorem tie_break_right_child (a k : Int) (l : List Int) (n i : Nat)
    (hr : 2 * i + 2 < l.length) :
    (l.getD (left_child i) 0 = l.getD (right_child i) 0 →
      smaller_child i ⟨a, k, some l, n⟩ = .ok (right_child i) ∧
      larger_child i ⟨a, k, some l, n⟩ = .ok (right_child i)) ∧
    (l.getD (left_child i) 0 < l.getD (right_child i) 0 →
      smaller_child i ⟨a, k, some l, n⟩ = .ok (left_child i) ∧
      larger_child i ⟨a, k, some l, n⟩ = .ok (right_child i)) ∧
    (l.getD (left_child i) 0 > l.getD (right_child i) 0 →
      smaller_child i ⟨a, k, some l, n⟩ = .ok (right_child i) ∧
      larger_child i ⟨a, k, some l, n⟩ = .ok (left_child i)) ∧
    (n = l.length → (k = min_heap ∨ k = max_heap) →
      ∃ c, (k = min_heap → smaller_child i ⟨a, k, some l, n⟩ = .ok c) ∧
        (k = max_heap → larger_child i ⟨a, k, some l, n⟩ = .ok c) ∧
        ∀ fuel, extract_loop (fuel + 1) ⟨a, k, some l, n⟩ i =
          if ordering k (l.getD i 0) (l.getD c 0) then
            extract_loop fuel ⟨a, k, some l, n⟩ c
          else extract_loop fuel ⟨a, k, some (lswap l i c), n⟩ c) := by
  have hs := smaller_child_some a k l n i hr
  have hg := larger_child_some a k l n i hr
  have e : ¬ max_heap = min_heap := by decide
  simp only [chosen_child, if_true, if_neg e] at hs hg
  simp only [left_child, right_child]
  refine ⟨?_, ?_, ?_, ?_⟩
  · intro heq
    have h1 : ¬ l.getD (2 * i + 1) 0 < l.getD (2 * i + 2) 0 := by omega
    have h2 : ¬ l.getD (2 * i + 1) 0 > l.getD (2 * i + 2) 0 := by omega
    rw [hs, hg, if_neg h1, if_neg h2]
    exact ⟨rfl, rfl⟩
  · intro hlt
    have h2 : ¬ l.getD (2 * i + 1) 0 > l.getD (2 * i + 2) 0 := by omega
    rw [hs, hg, if_pos hlt, if_neg h2]
    exact ⟨rfl, rfl⟩
  · intro hgt
    have h1 : ¬ l.getD (2 * i + 1) 0 < l.getD (2 * i + 2) 0 := by omega
    rw [hs, hg, if_neg h1, if_pos hgt]
    exact ⟨rfl, rfl⟩
  · intro hn hk
    refine ⟨chosen_child k l i, ?_, ?_, fun fuel => extract_loop_two a k l n i fuel hk hn hr⟩
    · intro hk0; subst hk0; exact smaller_child_some a _ l n i hr
    · intro hk1; subst hk1; exact larger_child_some a _ l n i hr

/-- Witness for C20: node 0 of the array `[9, 4, 4]`, children equal. -/
theorem tie_break_right_child_witness :
    smaller_child 0 ⟨1, min_heap, some [9, 4, 4], 3⟩ = .ok (right_child 0) ∧
    larger_child 0 ⟨1, min_heap, some [9, 4, 4], 3⟩ = .ok (right_child 0) :=
  (tie_break_right_child 1 min_heap [9, 4, 4] 3 0 (by decide)).1 (by decide)

end HeapC
